import Mathlib

/-!
Verification of the content-analysis and deduplication pipeline of the
NEV_daily repository (`smart_glass_monitor.py` and `generate_daily_news.py`).

Python strings are modelled as `List Char` (a Python `str` is a sequence of
Unicode code points).  `Char.toLower` lowercases exactly the ASCII letters;
Python's `str.lower` and `re.IGNORECASE` also fold non-ASCII cased letters,
but every configured pattern and keyword of the program is ASCII or Chinese
(uncased), so the two agree on all text the theorems below quantify over
except exotic non-ASCII cased input, which no claim depends on.
-/

/-- Characters of a Python string literal, as its list of Unicode code points. -/
def toChars (s : String) : List Char := s.toList

/-- Unicode whitespace as CPython classifies it (`Py_UNICODE_ISSPACE`): the set
used both by `str.strip`/`str.split` and by `\s` of the `re` module on `str`
patterns. -/
def pyIsSpace (c : Char) : Bool :=
  let n := c.toNat
  (9 ≤ n && n ≤ 13) || n == 32 || (28 ≤ n && n ≤ 31) || n == 0x85 || n == 0xa0 ||
  n == 0x1680 || (0x2000 ≤ n && n ≤ 0x200a) || n == 0x2028 || n == 0x2029 ||
  n == 0x202f || n == 0x205f || n == 0x3000

/-- Python's substring test `p in s` (case-sensitive). -/
def occursIn (p : List Char) : List Char → Bool
  | [] => p.isEmpty
  | c :: rest => p.isPrefixOf (c :: rest) || occursIn p rest

/-- Python's `str.lower` (ASCII letters; see the module comment). -/
def lowerChars (s : List Char) : List Char := s.map Char.toLower

/-- Character comparison under `re.IGNORECASE`. -/
def ciEq (a b : Char) : Bool := a.toLower == b.toLower

/-- Case-insensitive "p is a prefix of s". -/
def ciPref : List Char → List Char → Bool
  | [], _ => true
  | _ :: _, [] => false
  | a :: as, b :: bs => ciEq a b && ciPref as bs

/-! The mojibake-repair step of `SmartGlassMonitor._clean_content`:
`content.encode('latin-1').decode('utf-8')` inside `try`, keeping the
original text on any exception. -/

/-- Python `str.encode('latin-1')`: fails iff some code point exceeds 255. -/
def latin1Encode (s : List Char) : Option (List Nat) :=
  if s.all (fun c => c.toNat ≤ 255) then some (s.map Char.toNat) else none

/-- Python `bytes.decode('utf-8')` (strict): rejects truncated sequences,
stray continuation bytes, overlong forms, surrogates and values above
U+10FFFF, exactly as CPython's strict UTF-8 decoder does. -/
def utf8Decode : List Nat → Option (List Char)
  | [] => some []
  | b :: rest =>
    if b < 0x80 then (utf8Decode rest).map (fun l => Char.ofNat b :: l)
    else if b < 0xc2 then none
    else if b ≤ 0xdf then
      match rest with
      | b1 :: rest2 =>
        if 0x80 ≤ b1 && b1 ≤ 0xbf then
          (utf8Decode rest2).map (fun l =>
            Char.ofNat ((b - 0xc0) * 64 + (b1 - 0x80)) :: l)
        else none
      | [] => none
    else if b ≤ 0xef then
      match rest with
      | b1 :: b2 :: rest2 =>
        let lo1 := if b == 0xe0 then 0xa0 else 0x80
        let hi1 := if b == 0xed then 0x9f else 0xbf
        if lo1 ≤ b1 && b1 ≤ hi1 && 0x80 ≤ b2 && b2 ≤ 0xbf then
          (utf8Decode rest2).map (fun l =>
            Char.ofNat ((b - 0xe0) * 4096 + (b1 - 0x80) * 64 + (b2 - 0x80)) :: l)
        else none
      | _ => none
    else if b ≤ 0xf4 then
      match rest with
      | b1 :: b2 :: b3 :: rest2 =>
        let lo1 := if b == 0xf0 then 0x90 else 0x80
        let hi1 := if b == 0xf4 then 0x8f else 0xbf
        if lo1 ≤ b1 && b1 ≤ hi1 && 0x80 ≤ b2 && b2 ≤ 0xbf && 0x80 ≤ b3 && b3 ≤ 0xbf then
          (utf8Decode rest2).map (fun l =>
            Char.ofNat ((b - 0xf0) * 0x40000 + (b1 - 0x80) * 4096 +
              (b2 - 0x80) * 64 + (b3 - 0x80)) :: l)
        else none
      | _ => none
    else none

/-- Mojibake trigger of `_clean_content`: `"é" in content or "å" in content
or "ä" in content`. -/
def mojibakeTrigger (s : List Char) : Bool :=
  s.contains 'é' || s.contains 'å' || s.contains 'ä'

/-- Encoding-repair block of `_clean_content`: when the trigger fires, try the
latin-1/utf-8 round trip and keep the original text on any failure. -/
def fixEncoding (s : List Char) : List Char :=
  if mojibakeTrigger s then
    match latin1Encode s with
    | some bytes =>
      match utf8Decode bytes with
      | some t => t
      | none => s
    | none => s
  else s

/-! Noise-pattern removal.  Each configured pattern is either a literal phrase
or `A.*B` / `A.*` (with `.` not matching a newline, `.*` greedy), matched
case-insensitively; `re.sub(p, "", text)` deletes the leftmost
non-overlapping matches scanning left to right, resuming after each match. -/

/-- Shape of the ten configured noise patterns: a literal prefix, optionally
followed by `.*` and a literal suffix (empty for a trailing `.*`). -/
structure NoisePat where
  pre : List Char
  star : Bool
  suf : List Char
deriving DecidableEq

/-- Noise patterns of `_clean_content`, in the order the code applies them. -/
def noisePatterns : List NoisePat :=
  [ ⟨toChars "Download", true, toChars "PDF"⟩,
    ⟨toChars "Read more", false, []⟩,
    ⟨toChars "Click here", false, []⟩,
    ⟨toChars "Subscribe", false, []⟩,
    ⟨toChars "Sign up", false, []⟩,
    ⟨toChars "Login", false, []⟩,
    ⟨toChars "Register", false, []⟩,
    ⟨toChars "* 分割", true, []⟩,
    ⟨toChars "下载免费样品", true, []⟩,
    ⟨toChars "An Infographic Representation", true, []⟩ ]

/-- Length of the match of `pat` anchored at the head of `s`, if any.  For
`A.*B` the prefix must match, then `.*` greedily spans non-newline characters
up to the last position where the suffix matches (regex backtracking from the
longest extension). -/
def matchLen (pat : NoisePat) (s : List Char) : Option Nat :=
  if pat.pre.isEmpty then none
  else if ciPref pat.pre s then
    if pat.star then
      let rest := s.drop pat.pre.length
      let nlFree := (rest.takeWhile (fun c => c != '\n')).length
      match ((List.range (nlFree + 1)).filter
          (fun k => ciPref pat.suf (rest.drop k))).getLast? with
      | some k => some (pat.pre.length + k + pat.suf.length)
      | none => none
    else some pat.pre.length
  else none

/-- One `re.sub(pat, "", ·)` pass, fuelled: each step either deletes the match
anchored at the current position and resumes after it, or keeps one character.
Every match is nonempty, so fuel `s.length` (as used by `reSub`) never runs
out. -/
def reSubF (pat : NoisePat) : Nat → List Char → List Char
  | 0, s => s
  | _ + 1, [] => []
  | fuel + 1, c :: rest =>
    match matchLen pat (c :: rest) with
    | some n => reSubF pat fuel (List.drop n (c :: rest))
    | none => c :: reSubF pat fuel rest

/-- `re.sub(pat, "", s, flags=re.IGNORECASE)`. -/
def reSub (pat : NoisePat) (s : List Char) : List Char := reSubF pat s.length s

/-- The noise-removal loop: one substitution pass per pattern, in order. -/
def cleanNoise (s : List Char) : List Char :=
  noisePatterns.foldl (fun acc p => reSub p acc) s

/-- Replace each maximal whitespace run by a single space:
`re.sub(r"\s+", " ", ·)`, written as a one-pass automaton whose flag records
whether the previous character was whitespace. -/
def collapseGo (prevSpace : Bool) : List Char → List Char
  | [] => []
  | c :: rest =>
    if pyIsSpace c then
      if prevSpace then collapseGo true rest else ' ' :: collapseGo true rest
    else c :: collapseGo false rest

/-- Whitespace collapsing of `_clean_content`. -/
def collapseWs (s : List Char) : List Char := collapseGo false s

/-- Remove trailing whitespace (the right half of `str.strip`). -/
def rstripWs : List Char → List Char
  | [] => []
  | c :: rest =>
    let r := rstripWs rest
    if r.isEmpty && pyIsSpace c then [] else c :: r

/-- Python `str.strip()`. -/
def stripWs (s : List Char) : List Char := rstripWs (s.dropWhile pyIsSpace)

/-- `SmartGlassMonitor._clean_content`: empty input short-circuits; otherwise
mojibake repair, then the ten noise-pattern passes, then whitespace
normalisation and trimming.  No truncation. -/
def cleanContent (s : List Char) : List Char :=
  if s.isEmpty then []
  else stripWs (collapseWs (cleanNoise (fixEncoding s)))

example : cleanContent (toChars "Hello   World ") = toChars "Hello World" := by decide
example : cleanContent (toChars "abc Read MORE def") = toChars "abc def" := by decide
example : cleanContent (toChars "a Download x y PDF b") = toChars "a b" := by decide
example : cleanContent (toChars "SubSubscribescribe") = toChars "Subscribe" := by decide
example : fixEncoding (toChars "é©©") = [Char.ofNat 0x9a69] := by decide
example : fixEncoding (toChars "été") = toChars "été" := by decide

/-! Deduplication store: `SmartGlassMonitor._add_to_db` and the driving loop
`run_daily_check`.  A stored record carries the fields the code writes in
`new_entry`; the numeric `score` is carried opaquely (modelled as `Int`, the
code never computes with it). -/

/-- A record of `self.db["items"]` (the `new_entry` dictionary). -/
structure Entry where
  url : List Char
  title : Option (List Char)
  content : Option (List Char)
  published_date : List Char
  fetched_at : List Char
  category : List Char
  competitor : Option (List Char)
  tags : List (List Char)
  score : Int
deriving DecidableEq

/-- A raw search result (`item` dictionary); `none` models an absent key. -/
structure Item where
  url : Option (List Char)
  title : Option (List Char)
  content : Option (List Char)
  published_date : Option (List Char)
  score : Option Int
deriving DecidableEq

/-- The `new_entry` dictionary built by `_add_to_db`: `published_date` falls
back to the current date when absent, `fetched_at` is stamped with the
current time, `tags` defaults to `[]` and `score` to `0`. -/
def newEntry (item : Item) (category : List Char) (competitor : Option (List Char))
    (tags : Option (List (List Char))) (now nowDate url : List Char) : Entry :=
  { url := url, title := item.title, content := item.content,
    published_date := item.published_date.getD nowDate,
    fetched_at := now, category := category, competitor := competitor,
    tags := tags.getD [], score := item.score.getD 0 }

/-- `SmartGlassMonitor._add_to_db(item, category, competitor, tags)`:
returns `false` for a missing or empty URL (`if not url`) and for a URL
already stored (linear scan), else appends the new entry and returns `true`.
`now` and `nowDate` stand for the two `datetime.now()` strftime stamps. -/
def addToDb (items : List Entry) (item : Item) (category : List Char)
    (competitor : Option (List Char)) (tags : Option (List (List Char)))
    (now nowDate : List Char) : Bool × List Entry :=
  match item.url with
  | none => (false, items)
  | some url =>
    if url.isEmpty then (false, items)
    else if items.any (fun e => e.url == url) then (false, items)
    else (true, items ++ [newEntry item category competitor tags now nowDate url])

/-- Arguments of one `_add_to_db` call, for reasoning about call sequences. -/
structure AddOp where
  item : Item
  category : List Char
  competitor : Option (List Char)
  tags : Option (List (List Char))
  now : List Char
  nowDate : List Char

/-- A sequence of `_add_to_db` calls applied to the stored items. -/
def applyAdds (items : List Entry) : List AddOp → List Entry
  | [] => items
  | op :: ops =>
    applyAdds (addToDb items op.item op.category op.competitor op.tags
      op.now op.nowDate).2 ops

/-- One monitored competitor from the JSON config. -/
structure Competitor where
  name : List Char
  category : List Char

/-- The monitor configuration: `config.get("competitors", [])` (an empty
config file yields `{}`, hence no competitors). -/
structure Config where
  competitors : List Competitor

/-- One query object built by `run_daily_check`. -/
structure Query where
  q : List Char
  cat : List Char
  comp : Option (List Char)
  tag : List Char
deriving DecidableEq

/-- The hardcoded industry keyword list of `run_daily_check`. -/
def industryKeywords : List (List Char) :=
  [ toChars "智能调光玻璃", toChars "电致变色", toChars "PDLC", toChars "SPD玻璃",
    toChars "光致变色", toChars "Smart Glass Market", toChars "Electrochromic Glass",
    toChars "Switchable Glass" ]

/-- Query construction of `run_daily_check`: two competitor queries per
configured competitor, then two industry queries per hardcoded keyword. -/
def searchQueries (config : Config) : List Query :=
  (config.competitors.flatMap (fun c =>
    [ ⟨c.name ++ toChars " 智能调光 新闻", toChars "Competitor", some c.name, c.category⟩,
      ⟨c.name ++ toChars " smart glass news", toChars "Competitor", some c.name, c.category⟩ ]))
  ++ (industryKeywords.flatMap (fun kw =>
    [ ⟨kw ++ toChars " 行业新闻 2025", toChars "Industry", none, kw⟩,
      ⟨kw ++ toChars " market trends 2025", toChars "Industry", none, kw⟩ ]))

/-- The persisted store `{items, last_update}`. -/
structure Db where
  items : List Entry
  last_update : List Char

/-- `run_daily_check`, with the external Tavily service abstracted as the
function `search` from a query string to its result list (a transport error or
non-200 response is `search q = []`).  Every result has its content cleaned
and is offered to `_add_to_db`; the final `_save_db` rewrites `last_update`.
Returns the count of newly added items and the saved store. -/
def runDailyCheck (config : Config) (search : List Char → List Item)
    (db : Db) (now nowDate : List Char) : Nat × Db :=
  let step := fun (st : Nat × List Entry) (qo : Query) =>
    (search qo.q).foldl (fun (st : Nat × List Entry) (item : Item) =>
      let item2 := { item with content := some (cleanContent (item.content.getD [])) }
      let r := addToDb st.2 item2 qo.cat qo.comp (some [qo.tag]) now nowDate
      (if r.1 then st.1 + 1 else st.1, r.2)) st
  let r := (searchQueries config).foldl step (0, db.items)
  (r.1, { items := r.2, last_update := now })

example : (searchQueries ⟨[]⟩).length = 16 := by decide

/-! Summarizer `DailyNewsGenerator._summarize_text` (the variant with
translation): empty input short-circuits, the stripped text is returned below
the low-length threshold 10, otherwise the (possibly machine-translated) text
is split into sentences, scored, and the top three sentences are rendered as
an HTML list in their original order. -/

/-- Chinese character test of the code: `'一' <= x <= '鿿'`. -/
def isCJK (c : Char) : Bool := 0x4e00 ≤ c.toNat && c.toNat ≤ 0x9fff

/-- Sentence-ending punctuation, the class `[。！？.!?]` used both by the
sentence splitter and by the terminal-punctuation check. -/
def sentEnd (c : Char) : Bool :=
  c == '。' || c == '！' || c == '？' || c == '.' || c == '!' || c == '?'

/-- Scanner state for `re.split(r'(?<=[。！？.!?])\s+|\n+', text)`: scanning a
sentence (recording whether the previous character ends a sentence, for the
lookbehind), consuming a whitespace-run delimiter, or consuming a
newline-run delimiter. -/
inductive SplitMode where
  | norm : Bool → SplitMode
  | delimWs : SplitMode
  | delimNl : SplitMode

/-- One-pass automaton for the sentence-splitting regex: a whitespace run
right after sentence punctuation is a delimiter (first alternative, greedy
over all whitespace), otherwise a newline run is a delimiter (second
alternative); every delimiter emits the pending piece, and the final piece is
always emitted (`re.split` keeps empty pieces). -/
def splitGo (mode : SplitMode) (cur : List Char) : List Char → List (List Char)
  | [] => [cur.reverse]
  | c :: rest =>
    match mode with
    | .norm prevPunct =>
      if pyIsSpace c && prevPunct then cur.reverse :: splitGo .delimWs [] rest
      else if c == '\n' then cur.reverse :: splitGo .delimNl [] rest
      else splitGo (.norm (sentEnd c)) (c :: cur) rest
    | .delimWs =>
      if pyIsSpace c then splitGo .delimWs [] rest
      else splitGo (.norm (sentEnd c)) [c] rest
    | .delimNl =>
      if c == '\n' then splitGo .delimNl [] rest
      else splitGo (.norm (sentEnd c)) [c] rest

/-- Sentence splitting of `_summarize_text` (at the start of the text the
lookbehind has no character to inspect, so no delimiter can start there). -/
def splitSentences (s : List Char) : List (List Char) := splitGo (.norm false) [] s

/-- Kept sentences: `[s.strip() for s in sentences if len(s.strip()) > 10]`. -/
def sentencesOf (t : List Char) : List (List Char) :=
  ((splitSentences t).map stripWs).filter (fun s => 10 < s.length)

/-- Scoring keywords of `_summarize_text`. -/
def summKeywords : List (List Char) :=
  [ toChars "市场", toChars "增长", toChars "营收", toChars "发布", toChars "推出",
    toChars "销量", toChars "利润", toChars "同比", toChars "环比", toChars "技术",
    toChars "专利", toChars "投资" ]

/-- Sentence score: +5 for the first sentence, +2 per scoring keyword
contained (case-sensitive `in`), +1 for a length in [20, 100]. -/
def sentScore (i : Nat) (s : List Char) : Nat :=
  (if i = 0 then 5 else 0) +
  2 * (summKeywords.filter (fun k => occursIn k s)).length +
  (if 20 ≤ s.length && s.length ≤ 100 then 1 else 0)

/-- A scored sentence `(score, i, s)` as the code builds it. -/
abbrev Scored := Nat × Nat × List Char

/-- Stable insertion for the descending sort by score: the inserted element
goes before the first element whose score does not exceed it.  Used by
`sortDesc`, which inserts each element in front of elements that originally
came after it, so ties keep their original order, exactly as Python's stable
`list.sort(key=lambda x: x[0], reverse=True)`. -/
def insDesc (x : Scored) : List Scored → List Scored
  | [] => [x]
  | y :: ys => if y.1 ≤ x.1 then x :: y :: ys else y :: insDesc x ys

/-- Stable sort by score, descending (`scored.sort(key=..., reverse=True)`). -/
def sortDesc : List Scored → List Scored
  | [] => []
  | x :: xs => insDesc x (sortDesc xs)

/-- Stable insertion for the ascending sort by original index. -/
def insAsc (x : Scored) : List Scored → List Scored
  | [] => [x]
  | y :: ys => if x.2.1 ≤ y.2.1 then x :: y :: ys else y :: insAsc x ys

/-- Stable sort by original index (`top_items.sort(key=lambda x: x[1])`). -/
def sortByIdx : List Scored → List Scored
  | [] => []
  | x :: xs => insAsc x (sortByIdx xs)

/-- The scored sentence list (`for i, s in enumerate(sentences)`). -/
def scoredOf (t : List Char) : List Scored :=
  (sentencesOf t).enum.map (fun p => (sentScore p.1 p.2, p.1, p.2))

/-- Selection of `_summarize_text`: sort by score descending, take the first
three, restore original order. -/
def topItems (t : List Char) : List Scored :=
  sortByIdx ((sortDesc (scoredOf t)).take 3)

/-- Terminal-punctuation repair: `if s and s[-1] not in "。！？.!?": s += "。"`. -/
def finalizeSent (s : List Char) : List Char :=
  match s.getLast? with
  | none => s
  | some c => if sentEnd c then s else s ++ [ '。' ]

/-- Opening tag of the rendered list, verbatim from the code. -/
def ulOpen : List Char :=
  toChars "<ul style='margin:0.5rem 0 0.5rem 1.2rem; padding:0; list-style-type: disc;'>"

/-- Opening tag of one list item, verbatim from the code. -/
def liOpen : List Char :=
  toChars "<li style='margin-bottom:0.25rem; color:var(--text-secondary); font-size:0.85rem;'>"

/-- HTML rendering loop of `_summarize_text`. -/
def renderHtml (items : List Scored) : List Char :=
  (items.foldl (fun acc it => acc ++ liOpen ++ finalizeSent it.2.2 ++ toChars "</li>")
    ulOpen) ++ toChars "</ul>"

/-- Translation step: when fewer than 10% of the characters are Chinese the
text is truncated to 4000 characters and passed to the external translator
(abstracted as `translate`; a raised exception leaves the truncated text in
place, i.e. behaves as `translate` being the identity).  The float test
`chinese_chars < len(text) * 0.1` agrees with the exact integer comparison
`10 * chinese_chars < len(text)` for every realistic length (the rounding
error of `len * 0.1` is far below the distance to any integer it is compared
against), and `text[:4000]` is `take 4000` also when the text is shorter. -/
def translatePhase (translate : List Char → List Char) (t : List Char) : List Char :=
  if 10 * (t.filter isCJK).length < t.length then translate (t.take 4000) else t

/-- `DailyNewsGenerator._summarize_text`, with the external translator taken
as the parameter `translate`. -/
def summarizeText (translate : List Char → List Char) (text : List Char) : List Char :=
  if text.isEmpty then []
  else
    let t := stripWs text
    if t.length < 10 then t
    else renderHtml (topItems (translatePhase translate t))

/-! Analyzer `DailyNewsGenerator._analyze_content`: emoji selection, keyword
extraction with two fallback stages, and the summary. -/

/-- The keyword-to-emoji mapping, in declaration order (Python dictionaries
preserve insertion order). -/
def emojiMap : List (List Char × List Char) :=
  [ (toChars "market", toChars "📊"), (toChars "growth", toChars "📈"),
    (toChars "forecast", toChars "🔮"), (toChars "report", toChars "📑"),
    (toChars "glass", toChars "🪟"), (toChars "smart", toChars "🧠"),
    (toChars "tech", toChars "💻"), (toChars "ai", toChars "🤖"),
    (toChars "car", toChars "🚗"), (toChars "auto", toChars "🚙"),
    (toChars "invest", toChars "💰"), (toChars "patent", toChars "📜"),
    (toChars "launch", toChars "🚀"), (toChars "new", toChars "🆕"),
    (toChars "trend", toChars "📉"),
    (toChars "gentex", toChars "🏢"), (toChars "view", toChars "🏢"),
    (toChars "boe", toChars "🖥️"), (toChars "wicue", toChars "🕶️"),
    (toChars "市场", toChars "📊"), (toChars "增长", toChars "📈"),
    (toChars "预测", toChars "🔮"), (toChars "报告", toChars "📑"),
    (toChars "玻璃", toChars "🪟"), (toChars "智能", toChars "🧠"),
    (toChars "技术", toChars "💻"), (toChars "汽车", toChars "🚗"),
    (toChars "投资", toChars "💰"), (toChars "专利", toChars "📜"),
    (toChars "发布", toChars "🚀"), (toChars "趋势", toChars "📉"),
    (toChars "招聘", toChars "👥"), (toChars "job", toChars "👥"),
    (toChars "京东方", toChars "🖥️"), (toChars "唯酷", toChars "🕶️") ]

/-- `full_text = (title + " " + content).lower()`. -/
def fullTextOf (title content : List Char) : List Char :=
  lowerChars (title ++ toChars " " ++ content)

/-- The emoji-selection loop: default icon, overwritten by the value of the
first mapping key occurring in the text, then `break`. -/
def firstEmoji (full : List Char) : List (List Char × List Char) → List Char
  | [] => toChars "📰"
  | p :: rest => if occursIn p.1 full then p.2 else firstEmoji full rest

/-- Emoji output of `_analyze_content`. -/
def selectEmoji (title content : List Char) : List Char :=
  firstEmoji (fullTextOf title content) emojiMap

/-- Target keyword list of `_analyze_content`, in source order. -/
def targetKeywords : List (List Char) :=
  [ toChars "市场规模", toChars "增长", toChars "智能眼镜", toChars "电致变色",
    toChars "Google", toChars "AI", toChars "投融资", toChars "招聘",
    toChars "专利", toChars "趋势", toChars "预测", toChars "EC",
    toChars "PDLC", toChars "SPD", toChars "LC", toChars "Smart Glass",
    toChars "Market Size", toChars "Growth", toChars "Smart Glasses",
    toChars "Electrochromic", toChars "Patent", toChars "Investment",
    toChars "Trend", toChars "Forecast", toChars "Recruitment",
    toChars "Revenue", toChars "Sales", toChars "Partnership",
    toChars "Collaboration", toChars "Award", toChars "Innovation" ]

/-- First extraction stage: collect target keywords whose lowercase form
occurs in the text, stopping as soon as five are collected. -/
def stage1Go (full : List Char) : List (List Char) → List (List Char) → List (List Char)
  | [], acc => acc
  | kw :: rest, acc =>
    if occursIn (lowerChars kw) full then
      if 5 ≤ (acc ++ [kw]).length then acc ++ [kw] else stage1Go full rest (acc ++ [kw])
    else stage1Go full rest acc

/-- Stage 1 applied to the whole target list. -/
def stage1 (full : List Char) : List (List Char) := stage1Go full targetKeywords []

/-- Word characters for the regexes `\b`, `[A-Z][a-z]+` context and
`[^\w]`: Python's Unicode `\w` restricted to the alphabets this program
handles (ASCII alphanumerics, underscore, CJK).  The claims proved below
hold for any such predicate. -/
def isWordChar (c : Char) : Bool := c.isAlphanum || c == '_' || isCJK c

/-- One-pass automaton for `re.findall(r'\b[A-Z][a-z]+\b', title)`: a
candidate starts at an ASCII capital preceded by a non-word position, extends
over the maximal ASCII lowercase run (regex greediness; a shorter run would
put a word character after the match, failing the trailing boundary), and is
a match iff the run is nonempty and the next character is absent or not a
word character.  After a failed candidate every skipped position has a
word-character predecessor, so no match can start there and the scan resumes
at the current character, matching the regex engine's behaviour. -/
def capGo (prevWord : Bool) (cand : List Char) : List Char → List (List Char)
  | [] => if 2 ≤ cand.length then [cand.reverse] else []
  | c :: rest =>
    if cand.isEmpty then
      if !prevWord && c.isUpper then capGo (isWordChar c) [c] rest
      else capGo (isWordChar c) [] rest
    else if c.isLower then capGo true (c :: cand) rest
    else if 2 ≤ cand.length && !isWordChar c then
      cand.reverse :: capGo (isWordChar c) [] rest
    else capGo (isWordChar c) [] rest

/-- The capitalized-word matches of the title. -/
def capWords (title : List Char) : List (List Char) := capGo false [] title

/-- Second extraction stage body: capitalized title words longer than three
characters, not already collected, stopping at five. -/
def stage2Go (acc : List (List Char)) : List (List Char) → List (List Char)
  | [] => acc
  | m :: rest =>
    if !(acc.contains m) && 3 < m.length then
      if 5 ≤ (acc ++ [m]).length then acc ++ [m] else stage2Go (acc ++ [m]) rest
    else stage2Go acc rest

/-- Second extraction stage, guarded by `if len(found_keywords) < 5`. -/
def stage2 (title : List Char) (acc : List (List Char)) : List (List Char) :=
  if acc.length < 5 then stage2Go acc (capWords title) else acc

/-- Python `str.split()`: whitespace-delimited tokens, empties dropped. -/
def splitTokGo (cur : List Char) : List Char → List (List Char)
  | [] => if cur.isEmpty then [] else [cur.reverse]
  | c :: rest =>
    if pyIsSpace c then
      if cur.isEmpty then splitTokGo [] rest else cur.reverse :: splitTokGo [] rest
    else splitTokGo (c :: cur) rest

/-- Tokens of `title.split()`. -/
def splitTokens (s : List Char) : List (List Char) := splitTokGo [] s

/-- Third extraction stage body: title tokens with non-word characters
stripped (`re.sub(r'[^\w]', '', w)`), kept when longer than two characters
and not already collected, stopping at five. -/
def stage3Go (acc : List (List Char)) : List (List Char) → List (List Char)
  | [] => acc
  | w :: rest =>
    if 2 < (w.filter isWordChar).length && !(acc.contains (w.filter isWordChar)) then
      if 5 ≤ (acc ++ [w.filter isWordChar]).length then acc ++ [w.filter isWordChar]
      else stage3Go (acc ++ [w.filter isWordChar]) rest
    else stage3Go acc rest

/-- Third extraction stage, guarded by `if len(found_keywords) < 5`. -/
def stage3 (title : List Char) (acc : List (List Char)) : List (List Char) :=
  if acc.length < 5 then stage3Go acc (splitTokens title) else acc

/-- Keyword output of `_analyze_content`: the three stages in order, then
`found_keywords[:5]`. -/
def analyzeKeywords (title content : List Char) : List (List Char) :=
  (stage3 title (stage2 title (stage1 (fullTextOf title content)))).take 5

/-- Result record of `_analyze_content`. -/
structure Analysis where
  emoji : List Char
  keywords : List (List Char)
  summary : List Char

/-- `DailyNewsGenerator._analyze_content(content, title)`. -/
def analyzeContent (translate : List Char → List Char)
    (content title : List Char) : Analysis :=
  { emoji := selectEmoji title content,
    keywords := analyzeKeywords title content,
    summary := summarizeText translate content }

example : selectEmoji (toChars "Xyzzy Corp Update") (toChars "nothing matches") =
    toChars "📰" := by decide
example : selectEmoji [] (toChars "he said") = toChars "🤖" := by decide
example : selectEmoji [] (toChars "market said") = toChars "📊" := by decide
example : summarizeText (fun s => s) (toChars "hello") = toChars "hello" := by decide
example : summarizeText (fun s => s) (toChars "  hi  ") = toChars "hi" := by decide
example : splitSentences (toChars "ab. cd ef") = [toChars "ab.", toChars "cd ef"] := by decide
example : (topItems (toChars "这是一个没有标点的长句子啊")).length = 1 := by decide
example : capWords (toChars "Gentex Announces New HomeLink Products") =
    [toChars "Gentex", toChars "Announces", toChars "New", toChars "Products"] := by decide
example : analyzeKeywords (toChars "Smart Glass Market Growth Report 2025")
    (toChars "the market keeps growing") =
    [toChars "Smart Glass", toChars "Growth", toChars "Smart", toChars "Glass",
     toChars "Market"] := by decide

/-! Predicates and abbreviations used by the theorems below. -/

/-- Two adjacent whitespace characters somewhere in the string. -/
def hasDoubleWs : List Char → Bool
  | a :: b :: rest => (pyIsSpace a && pyIsSpace b) || hasDoubleWs (b :: rest)
  | _ => false

/-- Some match of the noise pattern starts somewhere in the string. -/
def hasMatch (pat : NoisePat) : List Char → Bool
  | [] => (matchLen pat []).isSome
  | c :: rest => (matchLen pat (c :: rest)).isSome || hasMatch pat rest

/-- The text the summarizer actually splits: the stripped input after the
translation step. -/
def summarySrc (translate : List Char → List Char) (text : List Char) : List Char :=
  translatePhase translate (stripWs text)

/-- The selected scored sentences of `_summarize_text` (its `top_items`). -/
def summarySel (translate : List Char → List Char) (text : List Char) : List Scored :=
  topItems (summarySrc translate text)

/-- Ranking used by the stable descending sort on scored sentences with
distinct original indices: strictly higher score, or equal score and earlier
original position. -/
def scoreRel (a b : Scored) : Prop :=
  b.1 < a.1 ∨ (b.1 = a.1 ∧ a.2.1 < b.2.1)

/-! Theorems.  Claim C1: deduplication of `_add_to_db`. -/

/-- Helper: adding any item preserves uniqueness of stored URLs. -/
theorem addToDb_nodup_step (items : List Entry) (item : Item) (cat : List Char)
    (comp : Option (List Char)) (tags : Option (List (List Char)))
    (now nd : List Char) (h : (items.map Entry.url).Nodup) :
    (((addToDb items item cat comp tags now nd).2).map Entry.url).Nodup := by
  unfold addToDb
  cases hu : item.url with
  | none => simpa using h
  | some u =>
    by_cases h1 : u.isEmpty
    · simpa [h1] using h
    · by_cases h2 : items.any (fun e => e.url == u)
      · simpa [h1, h2] using h
      · have hnotmem : u ∉ items.map Entry.url := by
          intro hmem
          rcases List.mem_map.mp hmem with ⟨e, he, hurl⟩
          have : items.any (fun e => e.url == u) = true :=
            List.any_eq_true.mpr ⟨e, he, by simp [hurl]⟩
          exact h2 this
        simp only [h1, h2, Bool.false_eq_true, if_false, if_neg]
        simp only [List.map_append, List.map_cons, List.map_nil, newEntry]
        refine List.Nodup.append h (List.nodup_singleton u) ?_
        intro a ha hb
        rw [List.mem_singleton] at hb
        subst hb
        exact hnotmem ha

/-- Helper: any sequence of `_add_to_db` calls preserves URL uniqueness. -/
theorem applyAdds_nodup (ops : List AddOp) : ∀ (items : List Entry),
    (items.map Entry.url).Nodup → ((applyAdds items ops).map Entry.url).Nodup := by
  induction ops with
  | nil => intro items h; simpa [applyAdds] using h
  | cons op ops ih =>
    intro items h
    exact ih _ (addToDb_nodup_step items op.item op.category op.competitor
      op.tags op.now op.nowDate h)

/-- C1: an item whose URL equals the URL of a stored entry is rejected:
`_add_to_db` returns `false` and the store is unchanged (same list of
entries, so the same count and all original fields including the title);
adding twice under one nonempty URL leaves exactly one entry with that URL;
and every sequence of `_add_to_db` calls preserves the invariant that URLs
are pairwise distinct (at most one entry per URL). -/
theorem addToDb_dedup :
    (∀ (items : List Entry) (item : Item) (cat : List Char)
        (comp : Option (List Char)) (tags : Option (List (List Char)))
        (now nd : List Char) (e : Entry), e ∈ items → item.url = some e.url →
        addToDb items item cat comp tags now nd = (false, items))
    ∧ (∀ (items : List Entry) (i1 i2 : Item) (u : List Char)
        (cat1 : List Char) (comp1 : Option (List Char))
        (tags1 : Option (List (List Char))) (now1 nd1 : List Char)
        (cat2 : List Char) (comp2 : Option (List Char))
        (tags2 : Option (List (List Char))) (now2 nd2 : List Char),
        i1.url = some u → i2.url = some u → u ≠ [] →
        (∀ e ∈ items, e.url ≠ u) →
        (((addToDb (addToDb items i1 cat1 comp1 tags1 now1 nd1).2
            i2 cat2 comp2 tags2 now2 nd2).2).filter
          (fun e => e.url == u)).length = 1)
    ∧ (∀ (items : List Entry) (ops : List AddOp),
        (items.map Entry.url).Nodup →
        ((applyAdds items ops).map Entry.url).Nodup) := by
  refine ⟨?_, ?_, fun items ops h => applyAdds_nodup ops items h⟩
  · intro items item cat comp tags now nd e he hu
    by_cases hemp : e.url.isEmpty
    · simp [addToDb, hu, hemp]
    · have hany : items.any (fun x => x.url == e.url) = true :=
        List.any_eq_true.mpr ⟨e, he, by simp⟩
      simp [addToDb, hu, hemp, hany]
  · intro items i1 i2 u cat1 comp1 tags1 now1 nd1 cat2 comp2 tags2 now2 nd2
      h1 h2 hne hnone
    have hempty : u.isEmpty = false := by
      cases u with
      | nil => exact absurd rfl hne
      | cons a l => rfl
    have hany1 : items.any (fun e => e.url == u) = false := by
      rw [List.any_eq_false]
      intro e he
      simpa using hnone e he
    have hfilter : items.filter (fun e => e.url == u) = [] := by
      rw [List.filter_eq_nil_iff]
      intro e he
      simpa using hnone e he
    have step1 : addToDb items i1 cat1 comp1 tags1 now1 nd1 =
        (true, items ++ [newEntry i1 cat1 comp1 tags1 now1 nd1 u]) := by
      simp [addToDb, h1, hempty, hany1]
    have hmem2 : (items ++ [newEntry i1 cat1 comp1 tags1 now1 nd1 u]).any
        (fun e => e.url == u) = true := by
      rw [List.any_eq_true]
      exact ⟨newEntry i1 cat1 comp1 tags1 now1 nd1 u,
        List.mem_append_right _ (List.mem_singleton.mpr rfl), by simp [newEntry]⟩
    have step2 : addToDb (items ++ [newEntry i1 cat1 comp1 tags1 now1 nd1 u])
        i2 cat2 comp2 tags2 now2 nd2 =
        (false, items ++ [newEntry i1 cat1 comp1 tags1 now1 nd1 u]) := by
      simp [addToDb, h2, hempty, hmem2]
    rw [step1, step2]
    simp [List.filter_append, hfilter, newEntry]

/-- Witness for C1 at a concrete store and item: a second item with the
already-stored URL is rejected and the stored entry keeps its title. -/
theorem addToDb_dedup_witness :
    addToDb [newEntry ({ url := some (toChars "https://x.com/a"),
                         title := some (toChars "Old title"), content := none,
                         published_date := none, score := none } : Item)
               (toChars "Industry") none none (toChars "t0") (toChars "d0")
               (toChars "https://x.com/a")]
      ({ url := some (toChars "https://x.com/a"), title := some (toChars "New title"),
         content := none, published_date := none, score := none } : Item)
      (toChars "Industry") none none (toChars "t1") (toChars "d1") =
    (false, [newEntry ({ url := some (toChars "https://x.com/a"),
                         title := some (toChars "Old title"), content := none,
                         published_date := none, score := none } : Item)
               (toChars "Industry") none none (toChars "t0") (toChars "d0")
               (toChars "https://x.com/a")]) :=
  addToDb_dedup.1 _ _ _ _ _ _ _ _ (List.mem_singleton.mpr rfl) rfl

/-! Claim C2: a run with an empty configuration. -/

/-- Counterexample to C2 as stated: with no configured subjects,
`run_daily_check` still prepares 16 queries (two per hardcoded industry
keyword), not zero. -/
theorem searchQueries_empty_config_cx :
    (searchQueries { competitors := [] }).length = 16
    ∧ (searchQueries { competitors := [] }).length ≠ 0 := by
  refine ⟨by decide, by decide⟩

/-- C2 amended: an empty config yields no competitor queries but exactly the
16 hardcoded industry queries; when every query returns no results (e.g.
every request fails), no item is added and the stored items are unchanged —
only the `last_update` stamp is rewritten by `_save_db`. -/
theorem run_daily_check_empty_config :
    (searchQueries { competitors := [] }).length = 16
    ∧ (searchQueries { competitors := [] }).all
        (fun q => q.cat == toChars "Industry") = true
    ∧ ∀ (db : Db) (now nd : List Char),
        runDailyCheck { competitors := [] } (fun _ => []) db now nd =
          (0, { items := db.items, last_update := now }) := by
  refine ⟨by decide, by decide, ?_⟩
  intro db now nd
  rfl

/-! Claim C5: summarizer on empty and short inputs. -/

/-- Counterexample to C5 as stated: a short input with surrounding whitespace
is returned stripped, not unchanged. -/
theorem summarize_short_strips_cx :
    summarizeText (fun s => s) (toChars "  hi  ") = toChars "hi"
    ∧ summarizeText (fun s => s) (toChars "  hi  ") ≠ toChars "  hi  " := by
  refine ⟨by decide, by decide⟩

/-- C5 amended: summarizing the empty string gives the empty string, and any
input whose stripped form is shorter than the low-length threshold 10 is
returned stripped — hence returned unchanged exactly when it carries no
surrounding whitespace, as with "hello". -/
theorem summarize_short_inputs (translate : List Char → List Char)
    (text : List Char) (h : (stripWs text).length < 10) :
    summarizeText translate text = stripWs text := by
  unfold summarizeText
  by_cases he : text.isEmpty
  · have hnil : text = [] := by
      cases text with
      | nil => rfl
      | cons a l => simp at he
    subst hnil
    simp [stripWs, rstripWs]
  · simp only [he, Bool.false_eq_true, if_false]
    simp [h]

/-- Witness for C5: the 5-character input "hello" is returned unchanged, and
the empty input yields the empty output. -/
theorem summarize_short_inputs_witness :
    summarizeText (fun s => s) (toChars "hello") = toChars "hello"
    ∧ summarizeText (fun s => s) [] = [] :=
  ⟨(summarize_short_inputs (fun s => s) (toChars "hello") (by decide)).trans
     (by decide),
   (summarize_short_inputs (fun s => s) [] (by decide)).trans (by decide)⟩

/-! Claim C7: emoji selection is the first match in declaration order. -/

/-- Helper: the selection loop returns the default icon when no key occurs. -/
theorem firstEmoji_default (full : List Char) :
    ∀ (l : List (List Char × List Char)),
    (∀ p ∈ l, occursIn p.1 full = false) → firstEmoji full l = toChars "📰" := by
  intro l
  induction l with
  | nil => intro _; rfl
  | cons p rest ih =>
    intro h
    have h0 : occursIn p.1 full = false := h p (List.mem_cons_self p rest)
    simp only [firstEmoji, h0, Bool.false_eq_true, if_false]
    exact ih (fun q hq => h q (List.mem_cons_of_mem p hq))

/-- Helper: the selection loop returns the value of the first occurring key. -/
theorem firstEmoji_hit (full : List Char) :
    ∀ (l : List (List Char × List Char)) (i : Nat) (hi : i < l.length),
    occursIn (l[i].1) full = true →
    (∀ (j : Nat) (hj : j < l.length), j < i → occursIn (l[j].1) full = false) →
    firstEmoji full l = l[i].2 := by
  intro l
  induction l with
  | nil => intro i hi; exact absurd hi (by simp)
  | cons p rest ih =>
    intro i hi hocc hbefore
    cases i with
    | zero =>
      simp only [List.getElem_cons_zero] at hocc ⊢
      simp [firstEmoji, hocc]
    | succ i =>
      have h0 : occursIn p.1 full = false := by
        have := hbefore 0 (by simp) (Nat.succ_pos i)
        simpa using this
      simp only [firstEmoji, h0, Bool.false_eq_true, if_false,
        List.getElem_cons_succ] at *
      refine ih i (by simpa using hi) hocc ?_
      intro j hj hji
      have := hbefore (j + 1) (by simpa using hj) (by omega)
      simpa using this

/-- Helper: when some key occurs, the loop returns the value of some mapping
entry. -/
theorem firstEmoji_mem (full : List Char) :
    ∀ (l : List (List Char × List Char)),
    (∃ p ∈ l, occursIn p.1 full = true) →
    ∃ p ∈ l, firstEmoji full l = p.2 := by
  intro l
  induction l with
  | nil => rintro ⟨p, hp, _⟩; exact absurd hp (by simp)
  | cons p rest ih =>
    rintro ⟨q, hq, hocc⟩
    by_cases h0 : occursIn p.1 full = true
    · exact ⟨p, List.mem_cons_self p rest, by simp [firstEmoji, h0]⟩
    · have hqrest : q ∈ rest := by
        rcases List.mem_cons.mp hq with h | h
        · subst h; exact absurd hocc h0
        · exact h
      rcases ih ⟨q, hqrest, hocc⟩ with ⟨r, hr, heq⟩
      refine ⟨r, List.mem_cons_of_mem p hr, ?_⟩
      simpa [firstEmoji, h0] using heq

/-- Helper: the loop's result is nonempty when every value is and the
default is. -/
theorem firstEmoji_ne_nil (full : List Char) :
    ∀ (l : List (List Char × List Char)), (∀ p ∈ l, p.2 ≠ []) →
    firstEmoji full l ≠ [] := by
  intro l
  induction l with
  | nil =>
    intro _
    show toChars "📰" ≠ []
    decide
  | cons p rest ih =>
    intro h
    by_cases h0 : occursIn p.1 full = true
    · simpa [firstEmoji, h0] using h p (List.mem_cons_self p rest)
    · have hf : occursIn p.1 full = false := by simpa using h0
      simpa [firstEmoji, hf] using ih (fun q hq => h q (List.mem_cons_of_mem p hq))

/-- C7: the analyzer's emoji is always a single nonempty value; it is the
value of the first mapping key (in declaration order) occurring in the
lowercased `title + " " + content`, and the default generic-news icon when
no key occurs, as on title "Xyzzy Corp Update", content "nothing matches". -/
theorem selectEmoji_first_match :
    (∀ (title content : List Char), selectEmoji title content ≠ [])
    ∧ (∀ (title content : List Char) (i : Nat) (hi : i < emojiMap.length),
        occursIn (emojiMap[i].1) (fullTextOf title content) = true →
        (∀ (j : Nat) (hj : j < emojiMap.length), j < i →
          occursIn (emojiMap[j].1) (fullTextOf title content) = false) →
        selectEmoji title content = emojiMap[i].2)
    ∧ (∀ (title content : List Char),
        (∀ p ∈ emojiMap, occursIn p.1 (fullTextOf title content) = false) →
        selectEmoji title content = toChars "📰")
    ∧ selectEmoji (toChars "Xyzzy Corp Update") (toChars "nothing matches") =
        toChars "📰" := by
  refine ⟨?_, ?_, ?_, by decide⟩
  · intro title content
    exact firstEmoji_ne_nil _ emojiMap (by decide)
  · intro title content i hi hocc hbefore
    exact firstEmoji_hit _ emojiMap i hi hocc hbefore
  · intro title content h
    exact firstEmoji_default _ emojiMap h

/-- Witness for C7: "Market Report" matches the first mapping key. -/
theorem selectEmoji_first_match_witness :
    selectEmoji (toChars "Market Report") [] = toChars "📊" := by
  have h := selectEmoji_first_match.2.1 (toChars "Market Report") [] 0 (by decide)
    (by decide) (fun j hj hji => absurd hji (by omega))
  exact h.trans (by decide)

/-! Claim C10: emoji keys match by raw substring containment. -/

/-- Helper: the executable substring test agrees with list infix. -/
theorem occursIn_substring (p : List Char) :
    ∀ (s : List Char), occursIn p s = true ↔ p <:+: s := by
  intro s
  induction s with
  | nil =>
    constructor
    · intro h
      have : p = [] := by
        cases p with
        | nil => rfl
        | cons a l => simp [occursIn] at h
      subst this
      exact List.nil_infix
    · intro h
      have : p = [] := List.eq_nil_of_infix_nil h
      subst this
      rfl
  | cons c rest ih =>
    constructor
    · intro h
      by_cases h1 : p.isPrefixOf (c :: rest)
      · exact (List.isPrefixOf_iff_prefix.mp h1).isInfix
      · have h2 : occursIn p rest = true := by
          simp only [occursIn] at h
          simpa [h1] using h
        exact (ih.mp h2).trans (List.suffix_cons c rest).isInfix
    · intro h
      rcases List.infix_cons_iff.mp h with h1 | h2
      · simp [occursIn, List.isPrefixOf_iff_prefix.mpr h1]
      · simp [occursIn, ih.mpr h2]

/-- Counterexample to C10's "e.g." clause as stated: the content
"market said" contains the word "said", yet the emoji is the one of the
earlier key "market", not the robot icon. -/
theorem emoji_said_not_robot_cx :
    occursIn (toChars "said") (fullTextOf [] (toChars "market said")) = true
    ∧ selectEmoji [] (toChars "market said") = toChars "📊"
    ∧ toChars "📊" ≠ toChars "🤖" := by
  refine ⟨by decide, by decide, by decide⟩

/-- C10 amended: emoji keys are matched by raw substring containment, not by
whole words.  Any text containing "said" contains the key "ai", so the
selected emoji is never the default; it is the robot icon exactly when no
earlier-declared key also occurs, as for content "he said" — an input none
of whose whitespace-delimited words is a mapping key. -/
theorem emoji_substring_semantics :
    (∀ (title content : List Char),
        occursIn (toChars "said") (fullTextOf title content) = true →
        selectEmoji title content ≠ toChars "📰")
    ∧ selectEmoji [] (toChars "he said") = toChars "🤖"
    ∧ (splitTokens (toChars "he said")).all
        (fun w => emojiMap.all (fun p => !(p.1 == w))) = true := by
  refine ⟨?_, by decide, by decide⟩
  intro title content h
  have hai : occursIn (toChars "ai") (fullTextOf title content) = true := by
    rw [occursIn_substring] at h ⊢
    exact List.IsInfix.trans (by decide) h
  have hex : ∃ p ∈ emojiMap, occursIn p.1 (fullTextOf title content) = true :=
    ⟨(toChars "ai", toChars "🤖"), by decide, hai⟩
  rcases firstEmoji_mem _ emojiMap hex with ⟨p, hp, heq⟩
  have hne : p.2 ≠ toChars "📰" := by
    have hall : ∀ q ∈ emojiMap, q.2 ≠ toChars "📰" := by decide
    exact hall p hp
  intro hcontra
  exact hne (heq.symm.trans hcontra)

/-- Witness for C10: content "he said" yields a non-default emoji. -/
theorem emoji_substring_semantics_witness :
    selectEmoji [] (toChars "he said") ≠ toChars "📰" :=
  emoji_substring_semantics.1 [] (toChars "he said") (by decide)

/-! Claim C6: keyword-bearing sentences outrank keyword-free ones. -/

/-- Helper: membership in the stable descending insertion. -/
theorem mem_insDesc (x : Scored) :
    ∀ (l : List Scored) (a : Scored), a ∈ insDesc x l ↔ a = x ∨ a ∈ l := by
  intro l
  induction l with
  | nil => intro a; simp [insDesc]
  | cons y ys ih =>
    intro a
    by_cases h : y.1 ≤ x.1
    · simp only [insDesc, if_pos h, List.mem_cons]
    · simp only [insDesc, if_neg h, List.mem_cons, ih]
      tauto

/-- Helper: the descending insertion keeps scores sorted (non-increasing). -/
theorem insDesc_pairwise_le (x : Scored) :
    ∀ (l : List Scored), l.Pairwise (fun a b => b.1 ≤ a.1) →
    (insDesc x l).Pairwise (fun a b => b.1 ≤ a.1) := by
  intro l
  induction l with
  | nil => intro _; simp [insDesc]
  | cons y ys ih =>
    intro h
    rcases List.pairwise_cons.mp h with ⟨hy, hys⟩
    by_cases hc : y.1 ≤ x.1
    · simp only [insDesc, hc, if_true]
      refine List.pairwise_cons.mpr ⟨?_, h⟩
      intro z hz
      rcases List.mem_cons.mp hz with rfl | hz2
      · exact hc
      · exact le_trans (hy z hz2) hc
    · simp only [insDesc, hc, if_false]
      refine List.pairwise_cons.mpr ⟨?_, ih hys⟩
      intro z hz
      rcases (mem_insDesc x ys z).mp hz with rfl | hz2
      · exact le_of_lt (Nat.lt_of_not_le hc)
      · exact hy z hz2

/-- Helper: the sort of `_summarize_text` is sorted by score, descending. -/
theorem sortDesc_pairwise_le :
    ∀ (l : List Scored), (sortDesc l).Pairwise (fun a b => b.1 ≤ a.1) := by
  intro l
  induction l with
  | nil => simp [sortDesc]
  | cons x xs ih => exact insDesc_pairwise_le x (sortDesc xs) ih

/-- C6: with equal lengths and equal position bonuses (neither sentence
first), a sentence containing the scoring keyword "增长" scores strictly
higher than one containing no scoring keyword, and in the score-descending
order used for the top-3 selection its entry always precedes the other's. -/
theorem summarize_keyword_ranking (s1 s2 : List Char) (i1 i2 : Nat)
    (h1 : i1 ≠ 0) (h2 : i2 ≠ 0) (hlen : s1.length = s2.length)
    (hkw : occursIn (toChars "增长") s1 = true)
    (hnone : ∀ k ∈ summKeywords, occursIn k s2 = false) :
    sentScore i2 s2 < sentScore i1 s1
    ∧ (∀ (l : List Scored) (p q : Fin (sortDesc l).length),
        (sortDesc l).get p = (sentScore i1 s1, i1, s1) →
        (sortDesc l).get q = (sentScore i2 s2, i2, s2) → p < q) := by
  have hs2 : (summKeywords.filter (fun k => occursIn k s2)).length = 0 := by
    rw [List.length_eq_zero]
    rw [List.filter_eq_nil_iff]
    intro k hk
    simp [hnone k hk]
  have hs1 : 0 < (summKeywords.filter (fun k => occursIn k s1)).length := by
    have hmem : toChars "增长" ∈ summKeywords.filter (fun k => occursIn k s1) :=
      List.mem_filter.mpr ⟨by decide, hkw⟩
    exact List.length_pos.mpr (List.ne_nil_of_mem hmem)
  have hscore : sentScore i2 s2 < sentScore i1 s1 := by
    unfold sentScore
    rw [hs2, hlen]
    simp only [h1, h2, if_neg]
    omega
  refine ⟨hscore, ?_⟩
  intro l p q hp hq
  by_contra hne
  push_neg at hne
  rcases Nat.lt_or_ge q.val p.val with hlt | hge
  · have hpair := List.pairwise_iff_get.mp (sortDesc_pairwise_le l) q p hlt
    rw [hp, hq] at hpair
    exact absurd hpair (by simpa using hscore)
  · have : p.val = q.val := le_antisymm hge (by simpa [Fin.lt_def] using hne)
    have hpq : p = q := Fin.ext this
    rw [hpq, hq] at hp
    have : sentScore i2 s2 = sentScore i1 s1 := by
      simpa using congrArg Prod.fst hp
    omega

/-- Witness for C6 at two concrete same-length sentences. -/
theorem summarize_keyword_ranking_witness :
    sentScore 2 (toChars "天气晴朗大家都在外面散步") <
    sentScore 1 (toChars "公司今年再次取得大幅增长") :=
  (summarize_keyword_ranking (toChars "公司今年再次取得大幅增长")
    (toChars "天气晴朗大家都在外面散步") 1 2 (by decide) (by decide) (by decide)
    (by decide) (by decide)).1

/-! Claim C8: keyword extraction is bounded by five and duplicate-free. -/

/-- Helper: stage 1 never grows past five keywords. -/
theorem stage1Go_length (full : List Char) :
    ∀ (kws acc : List (List Char)), acc.length ≤ 4 →
    (stage1Go full kws acc).length ≤ 5 := by
  intro kws
  induction kws with
  | nil => intro acc h; simp only [stage1Go]; omega
  | cons kw rest ih =>
    intro acc h
    by_cases hocc : occursIn (lowerChars kw) full = true
    · by_cases hstop : 5 ≤ (acc ++ [kw]).length
      · simp only [stage1Go, hocc, if_true, hstop]
        simp only [List.length_append, List.length_singleton]
        omega
      · simp only [stage1Go, hocc, if_true, hstop, if_false]
        refine ih (acc ++ [kw]) ?_
        simp only [List.length_append, List.length_singleton] at hstop ⊢
        omega
    · have hocc2 : occursIn (lowerChars kw) full = false := by simpa using hocc
      simp only [stage1Go, hocc2, Bool.false_eq_true, if_false]
      exact ih acc h

/-- Helper: stage 1 output has no duplicates when the keyword list has none
and none of its entries is already collected. -/
theorem stage1Go_nodup (full : List Char) :
    ∀ (kws acc : List (List Char)), acc.Nodup → kws.Nodup →
    (∀ k ∈ kws, k ∉ acc) → (stage1Go full kws acc).Nodup := by
  intro kws
  induction kws with
  | nil => intro acc h _ _; simpa [stage1Go] using h
  | cons kw rest ih =>
    intro acc ha hk hdisj
    rcases List.nodup_cons.mp hk with ⟨hkw, hrest⟩
    have hacc2 : (acc ++ [kw]).Nodup := by
      refine List.Nodup.append ha (List.nodup_singleton kw) ?_
      intro a hmem hmem2
      rw [List.mem_singleton] at hmem2
      exact hdisj kw (List.mem_cons_self kw rest) (hmem2 ▸ hmem)
    by_cases hocc : occursIn (lowerChars kw) full = true
    · by_cases hstop : 5 ≤ (acc ++ [kw]).length
      · simpa only [stage1Go, hocc, if_true, hstop] using hacc2
      · simp only [stage1Go, hocc, if_true, hstop, if_false]
        refine ih (acc ++ [kw]) hacc2 hrest ?_
        intro k hkrest hkacc2
        rcases List.mem_append.mp hkacc2 with hin | hin
        · exact hdisj k (List.mem_cons_of_mem kw hkrest) hin
        · rw [List.mem_singleton] at hin
          subst hin
          exact hkw hkrest
    · have hocc2 : occursIn (lowerChars kw) full = false := by simpa using hocc
      simp only [stage1Go, hocc2, Bool.false_eq_true, if_false]
      exact ih acc ha hrest (fun k hkr => hdisj k (List.mem_cons_of_mem kw hkr))

/-- Helper: stage 2 never grows past five keywords. -/
theorem stage2Go_length :
    ∀ (ms acc : List (List Char)), acc.length ≤ 4 →
    (stage2Go acc ms).length ≤ 5 := by
  intro ms
  induction ms with
  | nil => intro acc h; simp only [stage2Go]; omega
  | cons m rest ih =>
    intro acc h
    by_cases hc : (!(acc.contains m) && decide (3 < m.length)) = true
    · by_cases hstop : 5 ≤ (acc ++ [m]).length
      · simp only [stage2Go, hc, if_true, hstop]
        simp only [List.length_append, List.length_singleton]
        omega
      · simp only [stage2Go, hc, if_true, hstop, if_false]
        refine ih (acc ++ [m]) ?_
        simp only [List.length_append, List.length_singleton] at hstop ⊢
        omega
    · have hc2 : (!(acc.contains m) && decide (3 < m.length)) = false := by
        simpa using hc
      simp only [stage2Go, hc2, Bool.false_eq_true, if_false]
      exact ih acc h

/-- Helper: stage 2 preserves freedom from duplicates (membership is checked
before appending). -/
theorem stage2Go_nodup :
    ∀ (ms acc : List (List Char)), acc.Nodup → (stage2Go acc ms).Nodup := by
  intro ms
  induction ms with
  | nil => intro acc h; simpa [stage2Go] using h
  | cons m rest ih =>
    intro acc ha
    by_cases hc : (!(acc.contains m) && decide (3 < m.length)) = true
    · have hnm : m ∉ acc := by
        have h1 := ((Iff.of_eq (Bool.and_eq_true _ _)).mp hc).1
        simpa using h1
      have hacc2 : (acc ++ [m]).Nodup := by
        refine List.Nodup.append ha (List.nodup_singleton m) ?_
        intro a hmem hmem2
        rw [List.mem_singleton] at hmem2
        exact hnm (hmem2 ▸ hmem)
      by_cases hstop : 5 ≤ (acc ++ [m]).length
      · simpa only [stage2Go, hc, if_true, hstop] using hacc2
      · simp only [stage2Go, hc, if_true, hstop, if_false]
        exact ih (acc ++ [m]) hacc2
    · have hc2 : (!(acc.contains m) && decide (3 < m.length)) = false := by
        simpa using hc
      simp only [stage2Go, hc2, Bool.false_eq_true, if_false]
      exact ih acc ha

/-- Helper: stage 3 never grows past five keywords. -/
theorem stage3Go_length :
    ∀ (ws acc : List (List Char)), acc.length ≤ 4 →
    (stage3Go acc ws).length ≤ 5 := by
  intro ws
  induction ws with
  | nil => intro acc h; simp only [stage3Go]; omega
  | cons w rest ih =>
    intro acc h
    by_cases hc : (decide (2 < (w.filter isWordChar).length) &&
        !(acc.contains (w.filter isWordChar))) = true
    · by_cases hstop : 5 ≤ (acc ++ [w.filter isWordChar]).length
      · simp only [stage3Go, hc, if_true, hstop]
        simp only [List.length_append, List.length_singleton]
        omega
      · simp only [stage3Go, hc, if_true, hstop, if_false]
        refine ih (acc ++ [w.filter isWordChar]) ?_
        simp only [List.length_append, List.length_singleton] at hstop ⊢
        omega
    · have hc2 : (decide (2 < (w.filter isWordChar).length) &&
          !(acc.contains (w.filter isWordChar))) = false := by simpa using hc
      simp only [stage3Go, hc2, Bool.false_eq_true, if_false]
      exact ih acc h

/-- Helper: stage 3 preserves freedom from duplicates. -/
theorem stage3Go_nodup :
    ∀ (ws acc : List (List Char)), acc.Nodup → (stage3Go acc ws).Nodup := by
  intro ws
  induction ws with
  | nil => intro acc h; simpa [stage3Go] using h
  | cons w rest ih =>
    intro acc ha
    by_cases hc : (decide (2 < (w.filter isWordChar).length) &&
        !(acc.contains (w.filter isWordChar))) = true
    · have hnm : w.filter isWordChar ∉ acc := by
        have h1 := ((Iff.of_eq (Bool.and_eq_true _ _)).mp hc).2
        simpa using ((Iff.of_eq (Bool.and_eq_true _ _)).mp hc).2
      have hacc2 : (acc ++ [w.filter isWordChar]).Nodup := by
        refine List.Nodup.append ha (List.nodup_singleton _) ?_
        intro a hmem hmem2
        rw [List.mem_singleton] at hmem2
        exact hnm (hmem2 ▸ hmem)
      by_cases hstop : 5 ≤ (acc ++ [w.filter isWordChar]).length
      · simpa only [stage3Go, hc, if_true, hstop] using hacc2
      · simp only [stage3Go, hc, if_true, hstop, if_false]
        exact ih (acc ++ [w.filter isWordChar]) hacc2
    · have hc2 : (decide (2 < (w.filter isWordChar).length) &&
          !(acc.contains (w.filter isWordChar))) = false := by simpa using hc
      simp only [stage3Go, hc2, Bool.false_eq_true, if_false]
      exact ih acc ha

/-- C8: the analyzer's keyword list has at most five entries and no
duplicates; a stage entered with five keywords already collected adds
nothing, and each stage keeps the total at five or below (it only adds
keywords while fewer than five are collected, stopping once five are
reached). -/
theorem analyze_keywords_bounded :
    (∀ (title content : List Char), (analyzeKeywords title content).length ≤ 5)
    ∧ (∀ (title content : List Char), (analyzeKeywords title content).Nodup)
    ∧ (∀ (title : List Char) (acc : List (List Char)), 5 ≤ acc.length →
        stage2 title acc = acc ∧ stage3 title acc = acc)
    ∧ (∀ (title : List Char) (acc : List (List Char)), acc.length ≤ 5 →
        (stage2 title acc).length ≤ 5 ∧ (stage3 title acc).length ≤ 5)
    ∧ (∀ (full : List Char), (stage1 full).length ≤ 5 ∧ (stage1 full).Nodup) := by
  have hst1 : ∀ (full : List Char), (stage1 full).length ≤ 5 ∧ (stage1 full).Nodup := by
    intro full
    constructor
    · exact stage1Go_length full targetKeywords [] (by simp)
    · exact stage1Go_nodup full targetKeywords [] List.nodup_nil (by decide)
        (by simp)
  have hst2len : ∀ (title : List Char) (acc : List (List Char)), acc.length ≤ 5 →
      (stage2 title acc).length ≤ 5 := by
    intro title acc h
    unfold stage2
    by_cases hlt : acc.length < 5
    · simp only [hlt, if_true]
      exact stage2Go_length (capWords title) acc (by omega)
    · simpa [hlt] using h
  have hst3len : ∀ (title : List Char) (acc : List (List Char)), acc.length ≤ 5 →
      (stage3 title acc).length ≤ 5 := by
    intro title acc h
    unfold stage3
    by_cases hlt : acc.length < 5
    · simp only [hlt, if_true]
      exact stage3Go_length (splitTokens title) acc (by omega)
    · simpa [hlt] using h
  have hguard : ∀ (title : List Char) (acc : List (List Char)), 5 ≤ acc.length →
      stage2 title acc = acc ∧ stage3 title acc = acc := by
    intro title acc h
    have hlt : ¬ acc.length < 5 := by omega
    exact ⟨by simp [stage2, hlt], by simp [stage3, hlt]⟩
  refine ⟨?_, ?_, hguard, fun t acc h => ⟨hst2len t acc h, hst3len t acc h⟩, hst1⟩
  · intro title content
    unfold analyzeKeywords
    have := List.length_take 5
      (stage3 title (stage2 title (stage1 (fullTextOf title content))))
    omega
  · intro title content
    unfold analyzeKeywords
    refine List.Nodup.sublist (List.take_sublist 5 _) ?_
    have h1 := (hst1 (fullTextOf title content)).2
    have h2 : (stage2 title (stage1 (fullTextOf title content))).Nodup := by
      unfold stage2
      by_cases hlt : (stage1 (fullTextOf title content)).length < 5
      · simp only [hlt, if_true]
        exact stage2Go_nodup (capWords title) _ h1
      · simpa [hlt] using h1
    unfold stage3
    by_cases hlt : (stage2 title (stage1 (fullTextOf title content))).length < 5
    · simp only [hlt, if_true]
      exact stage3Go_nodup (splitTokens title) _ h2
    · simpa [hlt] using h2

/-- Witness for C8: a full stage-2 call on five already-collected keywords
returns them unchanged. -/
theorem analyze_keywords_bounded_witness :
    stage2 (toChars "New Data Points")
      [toChars "a", toChars "b", toChars "c", toChars "d", toChars "e"] =
    [toChars "a", toChars "b", toChars "c", toChars "d", toChars "e"] :=
  (analyze_keywords_bounded.2.2.1 (toChars "New Data Points") _ (by decide)).1

/-! Claim C9: cleaned output has no whitespace runs and no ragged ends. -/

/-- Helper: unfolding equation for the right strip on a cons cell. -/
theorem rstripWs_cons (c : Char) (rest : List Char) :
    rstripWs (c :: rest) =
      if ((rstripWs rest).isEmpty && pyIsSpace c) = true then []
      else c :: rstripWs rest := by
  rfl

/-- Helper: right after a whitespace run the collapser emits a non-space. -/
theorem collapseGo_true_head :
    ∀ (l : List Char) (c : Char), (collapseGo true l).head? = some c →
    pyIsSpace c = false := by
  intro l
  induction l with
  | nil => intro c h; exact Option.noConfusion h
  | cons a rest ih =>
    intro c h
    by_cases ha : pyIsSpace a = true
    · exact ih c (by simpa [collapseGo, ha] using h)
    · have ha2 : pyIsSpace a = false := by simpa using ha
      rw [collapseGo] at h
      simp only [ha2, Bool.false_eq_true, if_false, List.head?_cons,
        Option.some.injEq] at h
      rw [← h]
      exact ha2

/-- Helper: the collapser never emits two adjacent whitespace characters. -/
theorem collapseGo_noDouble :
    ∀ (l : List Char) (b : Bool), hasDoubleWs (collapseGo b l) = false := by
  intro l
  induction l with
  | nil => intro b; rfl
  | cons a rest ih =>
    intro b
    by_cases ha : pyIsSpace a = true
    · cases b with
      | true => simpa [collapseGo, ha] using ih true
      | false =>
        have hstep : collapseGo false (a :: rest) = ' ' :: collapseGo true rest := by
          rw [collapseGo]
          simp [ha]
        rw [hstep]
        cases hx : collapseGo true rest with
        | nil => rfl
        | cons d tail =>
          have hd : pyIsSpace d = false :=
            collapseGo_true_head rest d (by rw [hx]; rfl)
          rw [hasDoubleWs]
          simp only [hd, Bool.and_false, Bool.false_or]
          rw [← hx]
          exact ih true
    · have ha2 : pyIsSpace a = false := by simpa using ha
      rw [collapseGo]
      simp only [ha2, Bool.false_eq_true, if_false]
      cases hx : collapseGo false rest with
      | nil => rfl
      | cons d tail =>
        rw [hasDoubleWs]
        simp only [ha2, Bool.false_and, Bool.false_or]
        rw [← hx]
        exact ih false

/-- Helper: an adjacent whitespace pair survives dropping the head. -/
theorem hasDoubleWs_tail (c : Char) (l : List Char)
    (h : hasDoubleWs (c :: l) = false) : hasDoubleWs l = false := by
  cases l with
  | nil => rfl
  | cons d rest =>
    rw [hasDoubleWs] at h
    exact (Bool.or_eq_false_iff.mp h).2

/-- Helper: a prefix of a string without adjacent whitespace pairs has none. -/
theorem hasDoubleWs_of_prefix :
    ∀ (l t : List Char), hasDoubleWs (l ++ t) = false → hasDoubleWs l = false := by
  intro l
  induction l with
  | nil => intro t _; rfl
  | cons a rest ih =>
    intro t h
    cases rest with
    | nil => rfl
    | cons b rest2 =>
      rw [hasDoubleWs]
      rw [List.cons_append, List.cons_append] at h
      rw [hasDoubleWs] at h
      rcases Bool.or_eq_false_iff.mp h with ⟨h1, h2⟩
      rw [h1, Bool.false_or]
      exact ih t (by simpa using h2)

/-- Helper: the head surviving `dropWhile pyIsSpace` is not whitespace. -/
theorem dropWhile_head_nonspace :
    ∀ (l : List Char) (c : Char), (l.dropWhile pyIsSpace).head? = some c →
    pyIsSpace c = false := by
  intro l
  induction l with
  | nil => intro c h; exact Option.noConfusion h
  | cons a rest ih =>
    intro c h
    by_cases ha : pyIsSpace a = true
    · exact ih c (by simpa [List.dropWhile, ha] using h)
    · have ha2 : pyIsSpace a = false := by simpa using ha
      rw [List.dropWhile] at h
      simp only [ha2, List.head?_cons, Option.some.injEq] at h
      rw [← h]
      exact ha2

/-- Helper: `dropWhile` preserves the absence of whitespace pairs. -/
theorem hasDoubleWs_dropWhile (p : Char → Bool) :
    ∀ (l : List Char), hasDoubleWs l = false →
    hasDoubleWs (l.dropWhile p) = false := by
  intro l
  induction l with
  | nil => intro _; rfl
  | cons a rest ih =>
    intro h
    by_cases ha : p a = true
    · rw [List.dropWhile]
      simp only [ha]
      exact ih (hasDoubleWs_tail a rest h)
    · have ha2 : p a = false := by simpa using ha
      rw [List.dropWhile]
      simpa [ha2] using h

/-- Helper: the right strip returns a prefix of its input. -/
theorem rstripWs_pref : ∀ (l : List Char), rstripWs l <+: l := by
  intro l
  induction l with
  | nil => exact List.nil_prefix
  | cons c rest ih =>
    rw [rstripWs_cons]
    by_cases h : ((rstripWs rest).isEmpty && pyIsSpace c) = true
    · simp [h]
    · have h2 : ((rstripWs rest).isEmpty && pyIsSpace c) = false := by simpa using h
      simp only [h2, Bool.false_eq_true, if_false]
      rcases ih with ⟨t, ht⟩
      exact ⟨t, by rw [List.cons_append, ht]⟩

/-- Helper: the last character surviving the right strip is not whitespace. -/
theorem rstripWs_last :
    ∀ (l : List Char) (c : Char), (rstripWs l).getLast? = some c →
    pyIsSpace c = false := by
  intro l
  induction l with
  | nil => intro c h; exact Option.noConfusion h
  | cons a rest ih =>
    intro c h
    rw [rstripWs_cons] at h
    by_cases hc : ((rstripWs rest).isEmpty && pyIsSpace a) = true
    · rw [if_pos hc] at h
      simp at h
    · have hc2 : ((rstripWs rest).isEmpty && pyIsSpace a) = false := by simpa using hc
      rw [hc2] at h
      simp only [Bool.false_eq_true, if_false] at h
      cases hr : rstripWs rest with
      | nil =>
        rw [hr] at h
        simp only [List.getLast?_singleton, Option.some.injEq] at h
        rcases Bool.and_eq_false_iff.mp hc2 with h1 | h1
        · rw [hr] at h1; simp at h1
        · rw [← h]; exact h1
      | cons d tail =>
        rw [hr, List.getLast?_cons_cons] at h
        exact ih c (by rw [hr]; exact h)

/-- C9: for every input, the cleaner's output contains no run of two or more
consecutive whitespace characters and has no leading or trailing
whitespace. -/
theorem clean_whitespace_normalized (s : List Char) :
    hasDoubleWs (cleanContent s) = false
    ∧ ((cleanContent s).head?.all (fun c => !pyIsSpace c)) = true
    ∧ ((cleanContent s).getLast?.all (fun c => !pyIsSpace c)) = true := by
  unfold cleanContent
  by_cases he : s.isEmpty
  · simp [he, hasDoubleWs]
  · simp only [he, Bool.false_eq_true, if_false]
    set y := collapseWs (cleanNoise (fixEncoding s)) with hy
    have hnd : hasDoubleWs y = false := collapseGo_noDouble _ false
    have hdw : hasDoubleWs (y.dropWhile pyIsSpace) = false :=
      hasDoubleWs_dropWhile pyIsSpace y hnd
    refine ⟨?_, ?_, ?_⟩
    · rcases rstripWs_pref (y.dropWhile pyIsSpace) with ⟨t, ht⟩
      exact hasDoubleWs_of_prefix (rstripWs (y.dropWhile pyIsSpace)) t
        (by rw [ht]; exact hdw)
    · cases hh : (stripWs y).head? with
      | none => rfl
      | some c =>
        have hcs : pyIsSpace c = false := by
          rcases rstripWs_pref (y.dropWhile pyIsSpace) with ⟨t, ht⟩
          rw [stripWs] at hh
          cases hrr : rstripWs (y.dropWhile pyIsSpace) with
          | nil => rw [hrr] at hh; simp at hh
          | cons d tail =>
            rw [hrr] at hh
            simp only [List.head?_cons, Option.some.injEq] at hh
            rw [hrr] at ht
            refine dropWhile_head_nonspace y c ?_
            rw [← ht, List.cons_append, List.head?_cons, hh]
        simp [Option.all, hcs]
    · cases hh : (stripWs y).getLast? with
      | none => rfl
      | some c =>
        have hcs : pyIsSpace c = false := rstripWs_last _ c hh
        simp [Option.all, hcs]

/-! Claim C3: noise-phrase removal. -/

/-- Helper: a case-insensitive prefix is no longer than the string. -/
theorem ciPref_length_le : ∀ (p s : List Char), ciPref p s = true →
    p.length ≤ s.length := by
  intro p
  induction p with
  | nil => intro s _; simp
  | cons a ps ih =>
    intro s h
    cases s with
    | nil => exact absurd h (by simp [ciPref])
    | cons b ss =>
      rw [ciPref] at h
      rcases Bool.and_eq_true_iff.mp h with ⟨_, h2⟩
      simpa using ih ss h2

/-- Helper: no pattern matches at the end of the string. -/
theorem matchLen_nil (pat : NoisePat) : matchLen pat [] = none := by
  unfold matchLen
  cases hp : pat.pre with
  | nil => simp [hp]
  | cons a l => simp [hp, ciPref]

/-- Helper: a match is nonempty and lies inside the string. -/
theorem matchLen_bounds (pat : NoisePat) (s : List Char) (n : Nat)
    (h : matchLen pat s = some n) : 0 < n ∧ n ≤ s.length := by
  unfold matchLen at h
  split at h
  · exact absurd h (by simp)
  · rename_i hpre
    have hprelen : 0 < pat.pre.length := by
      cases hp : pat.pre with
      | nil => rw [hp] at hpre; simp at hpre
      | cons a l => simp [hp]
    split at h
    · rename_i hcip
      have hple : pat.pre.length ≤ s.length := ciPref_length_le _ _ hcip
      split at h
      · dsimp only at h
        split at h
        · rename_i k hk
          have hkmem := List.mem_of_getLast?_eq_some hk
          rw [List.mem_filter] at hkmem
          rcases hkmem with ⟨hkr, hkp⟩
          have hsuf : pat.suf.length ≤ (s.drop pat.pre.length).length - k :=
            le_trans (ciPref_length_le _ _ hkp) (by rw [List.length_drop])
          have hrest : (s.drop pat.pre.length).length = s.length - pat.pre.length :=
            List.length_drop _ _
          have hkbound : pat.suf.length ≤ s.length - pat.pre.length - k := by
            rw [hrest] at hsuf; exact hsuf
          have hkle : k ≤ s.length - pat.pre.length := by
            have hkr2 := List.mem_range.mp hkr
            have htw : ((s.drop pat.pre.length).takeWhile
                (fun c => c != '\n')).length ≤ (s.drop pat.pre.length).length :=
              (List.takeWhile_sublist _).length_le
            rw [hrest] at htw
            omega
          rcases Option.some.inj h with rfl
          constructor
          · omega
          · omega
        · exact absurd h (by simp)
      · rcases Option.some.inj h with rfl
        exact ⟨hprelen, hple⟩
    · exact absurd h (by simp)

/-- Helper: a substitution pass never lengthens the text. -/
theorem reSubF_length_le (pat : NoisePat) :
    ∀ (fuel : Nat) (s : List Char), (reSubF pat fuel s).length ≤ s.length := by
  intro fuel
  induction fuel with
  | zero => intro s; simp [reSubF]
  | succ fuel ih =>
    intro s
    cases s with
    | nil => simp [reSubF]
    | cons c rest =>
      rw [reSubF]
      cases hm : matchLen pat (c :: rest) with
      | some n =>
        calc (reSubF pat fuel ((c :: rest).drop n)).length
            ≤ ((c :: rest).drop n).length := ih _
          _ ≤ (c :: rest).length := by rw [List.length_drop]; omega
      | none =>
        simp only [List.length_cons]
        exact Nat.succ_le_succ (ih rest)

/-- Helper: with enough fuel, a pass over a string containing a match
strictly shortens it. -/
theorem reSubF_length_lt (pat : NoisePat) :
    ∀ (fuel : Nat) (s : List Char), s.length ≤ fuel → hasMatch pat s = true →
    (reSubF pat fuel s).length < s.length := by
  intro fuel
  induction fuel with
  | zero =>
    intro s hf hm
    have : s = [] := by
      cases s with
      | nil => rfl
      | cons c rest => simp at hf
    subst this
    rw [hasMatch, matchLen_nil] at hm
    simp at hm
  | succ fuel ih =>
    intro s hf hm
    cases s with
    | nil =>
      rw [hasMatch, matchLen_nil] at hm
      simp at hm
    | cons c rest =>
      rw [reSubF]
      cases hmt : matchLen pat (c :: rest) with
      | some n =>
        rcases matchLen_bounds pat (c :: rest) n hmt with ⟨hn1, hn2⟩
        calc (reSubF pat fuel ((c :: rest).drop n)).length
            ≤ ((c :: rest).drop n).length := reSubF_length_le pat fuel _
          _ < (c :: rest).length := by rw [List.length_drop]; simp at hn2 ⊢; omega
      | none =>
        have hrest : hasMatch pat rest = true := by
          rw [hasMatch, hmt] at hm
          simpa using hm
        simp only [List.length_cons]
        have := ih rest (by simpa [Nat.succ_le_succ_iff] using hf) hrest
        omega

/-- Helper: a pass either leaves the text unchanged or strictly shortens it. -/
theorem reSubF_eq_or_lt (pat : NoisePat) :
    ∀ (fuel : Nat) (s : List Char), reSubF pat fuel s = s ∨
    (reSubF pat fuel s).length < s.length := by
  intro fuel
  induction fuel with
  | zero => intro s; left; rfl
  | succ fuel ih =>
    intro s
    cases s with
    | nil => left; rfl
    | cons c rest =>
      rw [reSubF]
      cases hmt : matchLen pat (c :: rest) with
      | some n =>
        right
        rcases matchLen_bounds pat (c :: rest) n hmt with ⟨hn1, hn2⟩
        calc (reSubF pat fuel ((c :: rest).drop n)).length
            ≤ ((c :: rest).drop n).length := reSubF_length_le pat fuel _
          _ < (c :: rest).length := by rw [List.length_drop]; simp at hn2 ⊢; omega
      | none =>
        rcases ih rest with heq | hlt
        · left; rw [heq]
        · right
          simp only [List.length_cons]
          omega

/-- Helper: the pattern loop never lengthens the text. -/
theorem foldl_reSub_length_le :
    ∀ (pats : List NoisePat) (s : List Char),
    ((pats.foldl (fun acc p => reSub p acc) s)).length ≤ s.length := by
  intro pats
  induction pats with
  | nil => intro s; simp
  | cons p ps ih =>
    intro s
    calc ((ps.foldl (fun acc p => reSub p acc) (reSub p s))).length
        ≤ (reSub p s).length := ih _
      _ ≤ s.length := reSubF_length_le p _ s

/-- Helper: the pattern loop strictly shortens a text in which some listed
pattern has a match. -/
theorem foldl_reSub_length_lt :
    ∀ (pats : List NoisePat) (pat : NoisePat) (s : List Char),
    pat ∈ pats → hasMatch pat s = true →
    ((pats.foldl (fun acc p => reSub p acc) s)).length < s.length := by
  intro pats
  induction pats with
  | nil => intro pat s hmem; exact absurd hmem (by simp)
  | cons p ps ih =>
    intro pat s hmem hmatch
    rcases List.mem_cons.mp hmem with rfl | hmem2
    · have h1 : (reSub pat s).length < s.length :=
        reSubF_length_lt pat s.length s le_rfl hmatch
      calc ((ps.foldl (fun acc p => reSub p acc) (reSub pat s))).length
          ≤ (reSub pat s).length := foldl_reSub_length_le ps _
        _ < s.length := h1
    · rcases reSubF_eq_or_lt p s.length s with heq | hlt
      · have : reSub p s = s := heq
        simp only [List.foldl_cons, this]
        exact ih pat s hmem2 hmatch
      · calc ((ps.foldl (fun acc p => reSub p acc) (reSub p s))).length
            ≤ (reSub p s).length := foldl_reSub_length_le ps _
          _ < s.length := hlt

/-- Helper: collapsing whitespace never lengthens the text. -/
theorem collapseGo_length_le :
    ∀ (l : List Char) (b : Bool), (collapseGo b l).length ≤ l.length := by
  intro l
  induction l with
  | nil => intro b; simp [collapseGo]
  | cons a rest ih =>
    intro b
    rw [collapseGo]
    by_cases ha : pyIsSpace a = true
    · simp only [ha, if_true]
      cases b with
      | true =>
        simp only [if_true]
        calc (collapseGo true rest).length ≤ rest.length := ih true
          _ ≤ (a :: rest).length := by simp
      | false =>
        simp only [Bool.false_eq_true, if_false, List.length_cons]
        exact Nat.succ_le_succ (ih true)
    · have ha2 : pyIsSpace a = false := by simpa using ha
      simp only [ha2, Bool.false_eq_true, if_false, List.length_cons]
      exact Nat.succ_le_succ (ih false)

/-- Counterexample to C3 as stated: deleting a noise phrase can splice the
surrounding text into a new occurrence.  "SubSubscribescribe" contains the
configured phrase "Subscribe"; its cleaned output is exactly "Subscribe",
which still contains that phrase. -/
theorem clean_noise_recreated_cx :
    occursIn (toChars "Subscribe") (toChars "SubSubscribescribe") = true
    ∧ cleanContent (toChars "SubSubscribescribe") = toChars "Subscribe"
    ∧ occursIn (toChars "Subscribe") (cleanContent (toChars "SubSubscribescribe")) =
        true := by
  refine ⟨by decide, by decide, by decide⟩

/-- C3 amended: each substitution pass deletes all the leftmost
non-overlapping matches of its pattern, so whenever an input (not subject to
the mojibake trigger) contains a match of some configured noise pattern, the
cleaned output is strictly shorter than the input — at least one full match
is removed.  The output can nevertheless contain a noise phrase again, because
deletions can splice flanking text into a new occurrence (see the
counterexample). -/
theorem clean_removes_noise_shrinks (s : List Char) (pat : NoisePat)
    (hmem : pat ∈ noisePatterns) (hmatch : hasMatch pat s = true)
    (htrig : mojibakeTrigger s = false) :
    (cleanContent s).length < s.length := by
  have hs : s.isEmpty = false := by
    cases s with
    | nil => rw [hasMatch, matchLen_nil] at hmatch; simp at hmatch
    | cons c rest => rfl
  unfold cleanContent
  rw [hs]
  simp only [Bool.false_eq_true, if_false]
  have hfix : fixEncoding s = s := by
    unfold fixEncoding
    rw [htrig]
    simp
  rw [hfix]
  have h1 : (cleanNoise s).length < s.length :=
    foldl_reSub_length_lt noisePatterns pat s hmem hmatch
  have h2 : (collapseWs (cleanNoise s)).length ≤ (cleanNoise s).length :=
    collapseGo_length_le _ false
  have h3 : (stripWs (collapseWs (cleanNoise s))).length ≤
      (collapseWs (cleanNoise s)).length := by
    unfold stripWs
    calc (rstripWs ((collapseWs (cleanNoise s)).dropWhile pyIsSpace)).length
        ≤ ((collapseWs (cleanNoise s)).dropWhile pyIsSpace).length :=
          (rstripWs_pref _).length_le
      _ ≤ (collapseWs (cleanNoise s)).length :=
          (List.dropWhile_sublist pyIsSpace).length_le
  omega

/-- Witness for C3 at a concrete noisy input. -/
theorem clean_removes_noise_shrinks_witness :
    (cleanContent (toChars "xx Subscribe yy")).length <
    (toChars "xx Subscribe yy").length :=
  clean_removes_noise_shrinks (toChars "xx Subscribe yy")
    ⟨toChars "Subscribe", false, []⟩ (by decide) (by decide) (by decide)

/-! Claim C4: the summarizer's selection pipeline. -/

/-- Helper: inserting adds one element. -/
theorem insDesc_length (x : Scored) :
    ∀ (l : List Scored), (insDesc x l).length = l.length + 1 := by
  intro l
  induction l with
  | nil => rfl
  | cons y ys ih =>
    by_cases h : y.1 ≤ x.1
    · simp [insDesc, h]
    · simp [insDesc, h, ih]

/-- Helper: the descending sort preserves length. -/
theorem sortDesc_length : ∀ (l : List Scored), (sortDesc l).length = l.length := by
  intro l
  induction l with
  | nil => rfl
  | cons x xs ih => rw [sortDesc, insDesc_length, ih, List.length_cons]

/-- Helper: inserting ascending adds one element. -/
theorem insAsc_length (x : Scored) :
    ∀ (l : List Scored), (insAsc x l).length = l.length + 1 := by
  intro l
  induction l with
  | nil => rfl
  | cons y ys ih =>
    by_cases h : x.2.1 ≤ y.2.1
    · simp [insAsc, h]
    · simp [insAsc, h, ih]

/-- Helper: the ascending sort preserves length. -/
theorem sortByIdx_length : ∀ (l : List Scored), (sortByIdx l).length = l.length := by
  intro l
  induction l with
  | nil => rfl
  | cons x xs ih => rw [sortByIdx, insAsc_length, ih, List.length_cons]

/-- Helper: the descending insertion is a permutation of consing. -/
theorem insDesc_perm (x : Scored) :
    ∀ (l : List Scored), (insDesc x l).Perm (x :: l) := by
  intro l
  induction l with
  | nil => exact List.Perm.refl _
  | cons y ys ih =>
    by_cases h : y.1 ≤ x.1
    · simp only [insDesc, h, if_true]
      exact List.Perm.refl _
    · simp only [insDesc, h, if_false]
      exact (ih.cons y).trans (List.Perm.swap x y ys)

/-- Helper: the descending sort is a permutation. -/
theorem sortDesc_perm : ∀ (l : List Scored), (sortDesc l).Perm l := by
  intro l
  induction l with
  | nil => exact List.Perm.refl _
  | cons x xs ih => exact (insDesc_perm x (sortDesc xs)).trans (ih.cons x)

/-- Helper: the ascending insertion is a permutation of consing. -/
theorem insAsc_perm (x : Scored) :
    ∀ (l : List Scored), (insAsc x l).Perm (x :: l) := by
  intro l
  induction l with
  | nil => exact List.Perm.refl _
  | cons y ys ih =>
    by_cases h : x.2.1 ≤ y.2.1
    · simp only [insAsc, h, if_true]
      exact List.Perm.refl _
    · simp only [insAsc, h, if_false]
      exact (ih.cons y).trans (List.Perm.swap x y ys)

/-- Helper: the ascending sort is a permutation. -/
theorem sortByIdx_perm : ∀ (l : List Scored), (sortByIdx l).Perm l := by
  intro l
  induction l with
  | nil => exact List.Perm.refl _
  | cons x xs ih => exact (insAsc_perm x (sortByIdx xs)).trans (ih.cons x)

/-- Helper: position k of the scored list carries index k and sentence k. -/
theorem scoredOf_getElem? (t : List Char) (k : Nat) :
    (scoredOf t)[k]? = ((sentencesOf t)[k]?).map (fun s => (sentScore k s, k, s)) := by
  unfold scoredOf
  rw [List.getElem?_map, List.getElem?_enum]
  cases (sentencesOf t)[k]? with
  | none => rfl
  | some s => rfl

/-- Helper: the scored list's length is the kept-sentence count. -/
theorem scoredOf_length (t : List Char) :
    (scoredOf t).length = (sentencesOf t).length := by
  unfold scoredOf
  rw [List.length_map, List.enum_length]

/-- Helper: a member of the scored list sits at the position its index
names. -/
theorem scoredOf_mem_getElem? (t : List Char) (a : Scored)
    (h : a ∈ scoredOf t) : (scoredOf t)[a.2.1]? = some a := by
  rcases List.mem_iff_getElem.mp h with ⟨k, hk, hget⟩
  have hk2 : k < (sentencesOf t).length := by
    rw [← scoredOf_length t]; exact hk
  have hsome : (scoredOf t)[k]? = some a := by
    rw [List.getElem?_eq_getElem hk, hget]
  have hform := scoredOf_getElem? t k
  rw [hsome, List.getElem?_eq_getElem hk2] at hform
  have ha : a = (sentScore k ((sentencesOf t)[k]), k, (sentencesOf t)[k]) := by
    simpa using hform
  have hidx : a.2.1 = k := by rw [ha]
  rw [hidx]
  exact hsome

/-- Helper: the scored list's original indices are strictly increasing. -/
theorem scoredOf_pairwise_idx (t : List Char) :
    (scoredOf t).Pairwise (fun a b => a.2.1 < b.2.1) := by
  rw [List.pairwise_iff_getElem]
  intro i j hi hj hij
  have hi2 : i < (sentencesOf t).length := by rw [← scoredOf_length t]; exact hi
  have hj2 : j < (sentencesOf t).length := by rw [← scoredOf_length t]; exact hj
  have hgi := scoredOf_getElem? t i
  have hgj := scoredOf_getElem? t j
  rw [List.getElem?_eq_getElem hi, List.getElem?_eq_getElem hi2] at hgi
  rw [List.getElem?_eq_getElem hj, List.getElem?_eq_getElem hj2] at hgj
  have h1 : (scoredOf t)[i].2.1 = i := by
    rcases Option.some.inj hgi with h'
    rw [h']
  have h2 : (scoredOf t)[j].2.1 = j := by
    rcases Option.some.inj hgj with h'
    rw [h']
  rw [h1, h2]
  exact hij

/-- Helper: a member of a kept-sentence list is longer than ten characters. -/
theorem sentencesOf_mem_long (t : List Char) (s : List Char)
    (h : s ∈ sentencesOf t) : 10 < s.length := by
  unfold sentencesOf at h
  have := List.of_mem_filter h
  simpa using this

/-- Helper: the punctuation repair yields a sentence ending in terminal
punctuation whenever the sentence is nonempty. -/
theorem finalizeSent_ends (s : List Char) (h : s ≠ []) :
    ∃ c, (finalizeSent s).getLast? = some c ∧ sentEnd c = true := by
  cases hl : s.getLast? with
  | none => exact absurd (List.getLast?_eq_none_iff.mp hl) h
  | some c =>
    by_cases hc : sentEnd c = true
    · refine ⟨c, ?_, hc⟩
      unfold finalizeSent
      rw [hl]
      dsimp only
      rw [if_pos hc]
      exact hl
    · refine ⟨'。', ?_, by decide⟩
      unfold finalizeSent
      rw [hl]
      dsimp only
      rw [if_neg hc]
      exact List.getLast?_concat s

/-- Helper: stable descending insertion of an element whose original index
precedes the indices of the sorted list preserves the stability ranking. -/
theorem insDesc_pairwise_rel (x : Scored) :
    ∀ (l : List Scored), (∀ y ∈ l, x.2.1 < y.2.1) → l.Pairwise scoreRel →
    (insDesc x l).Pairwise scoreRel := by
  intro l
  induction l with
  | nil => intro _ _; simp [insDesc]
  | cons y ys ih =>
    intro hidx hp
    rcases List.pairwise_cons.mp hp with ⟨hy, hys⟩
    by_cases hc : y.1 ≤ x.1
    · simp only [insDesc, if_pos hc]
      refine List.pairwise_cons.mpr ⟨?_, hp⟩
      intro z hz
      have hz1 : z.1 ≤ x.1 := by
        rcases List.mem_cons.mp hz with rfl | hz2
        · exact hc
        · rcases hy z hz2 with hlt | ⟨heq, _⟩
          · exact le_trans (le_of_lt hlt) hc
          · rw [heq]; exact hc
      rcases Nat.lt_or_ge z.1 x.1 with hlt | hge
      · exact Or.inl hlt
      · exact Or.inr ⟨le_antisymm hz1 hge, hidx z hz⟩
    · simp only [insDesc, if_neg hc]
      refine List.pairwise_cons.mpr
        ⟨?_, ih (fun z hz => hidx z (List.mem_cons_of_mem y hz)) hys⟩
      intro z hz
      rcases (mem_insDesc x ys z).mp hz with rfl | hz2
      · exact Or.inl (Nat.lt_of_not_le hc)
      · exact hy z hz2

/-- Helper: on a list with strictly increasing original indices the
descending sort is sorted for the stability ranking: scores non-increasing,
ties in original order, exactly as Python's stable `sort(reverse=True)`. -/
theorem sortDesc_pairwise_rel :
    ∀ (l : List Scored), l.Pairwise (fun a b => a.2.1 < b.2.1) →
    (sortDesc l).Pairwise scoreRel := by
  intro l
  induction l with
  | nil => intro _; simp [sortDesc]
  | cons x xs ih =>
    intro hp
    rcases List.pairwise_cons.mp hp with ⟨hx, hxs⟩
    rw [sortDesc]
    refine insDesc_pairwise_rel x (sortDesc xs) ?_ (ih hxs)
    intro y hy
    exact hx y ((sortDesc_perm xs).mem_iff.mp hy)

/-- Helper: ascending insertion by original index, with distinct indices. -/
theorem insAsc_pairwise_lt (x : Scored) :
    ∀ (l : List Scored), (∀ y ∈ l, x.2.1 ≠ y.2.1) →
    l.Pairwise (fun a b => a.2.1 < b.2.1) →
    (insAsc x l).Pairwise (fun a b => a.2.1 < b.2.1) := by
  intro l
  induction l with
  | nil => intro _ _; simp [insAsc]
  | cons y ys ih =>
    intro hne hp
    rcases List.pairwise_cons.mp hp with ⟨hy, hys⟩
    by_cases hc : x.2.1 ≤ y.2.1
    · simp only [insAsc, if_pos hc]
      refine List.pairwise_cons.mpr ⟨?_, hp⟩
      intro z hz
      have hxy : x.2.1 < y.2.1 :=
        Nat.lt_of_le_of_ne hc (hne y (List.mem_cons_self y ys))
      rcases List.mem_cons.mp hz with rfl | hz2
      · exact hxy
      · exact Nat.lt_trans hxy (hy z hz2)
    · simp only [insAsc, if_neg hc]
      refine List.pairwise_cons.mpr
        ⟨?_, ih (fun z hz => hne z (List.mem_cons_of_mem y hz)) hys⟩
      intro z hz
      rcases List.mem_cons.mp ((insAsc_perm x ys).mem_iff.mp hz) with rfl | hz2
      · exact Nat.lt_of_not_le hc
      · exact hy z hz2

/-- Helper: restoring the original order sorts strictly by original index. -/
theorem sortByIdx_pairwise_lt :
    ∀ (l : List Scored), l.Pairwise (fun a b => a.2.1 ≠ b.2.1) →
    (sortByIdx l).Pairwise (fun a b => a.2.1 < b.2.1) := by
  intro l
  induction l with
  | nil => intro _; simp [sortByIdx]
  | cons x xs ih =>
    intro hp
    rcases List.pairwise_cons.mp hp with ⟨hx, hxs⟩
    rw [sortByIdx]
    refine insAsc_pairwise_lt x (sortByIdx xs) ?_ (ih hxs)
    intro y hy
    exact hx y ((sortByIdx_perm xs).mem_iff.mp hy)

/-- Helper: every selected item is one of the scored sentences. -/
theorem topItems_mem (t : List Char) (a : Scored) (h : a ∈ topItems t) :
    a ∈ scoredOf t := by
  unfold topItems at h
  have h2 : a ∈ (sortDesc (scoredOf t)).take 3 := (sortByIdx_perm _).mem_iff.mp h
  have h3 : a ∈ sortDesc (scoredOf t) := (List.take_sublist 3 _).subset h2
  exact (sortDesc_perm _).mem_iff.mp h3

/-- Helper: every selected item outranks every unselected scored sentence. -/
theorem topItems_dominates (t : List Char) :
    ∀ a ∈ topItems t, ∀ b ∈ scoredOf t, b ∉ topItems t → scoreRel a b := by
  intro a ha b hb hbn
  unfold topItems at ha hbn
  have hsrel : (sortDesc (scoredOf t)).Pairwise scoreRel :=
    sortDesc_pairwise_rel _ (scoredOf_pairwise_idx t)
  have ha2 : a ∈ (sortDesc (scoredOf t)).take 3 := (sortByIdx_perm _).mem_iff.mp ha
  have hb2 : b ∈ sortDesc (scoredOf t) := (sortDesc_perm _).mem_iff.mpr hb
  have hbn2 : b ∉ (sortDesc (scoredOf t)).take 3 := fun hin =>
    hbn ((sortByIdx_perm _).mem_iff.mpr hin)
  have hb3 : b ∈ (sortDesc (scoredOf t)).drop 3 := by
    rcases List.mem_append.mp
        (by rw [List.take_append_drop 3 (sortDesc (scoredOf t))]; exact hb2) with
      hin | hin
    · exact absurd hin hbn2
    · exact hin
  have hpa := hsrel
  rw [← List.take_append_drop 3 (sortDesc (scoredOf t))] at hpa
  rcases List.pairwise_append.mp hpa with ⟨_, _, hcross⟩
  exact hcross a ha2 b hb3

/-- Counterexample to C4 as stated: an input above the length threshold whose
(single) kept sentence count is below three yields fewer than three selected
sentences. -/
theorem summarize_top3_cx :
    10 ≤ (stripWs (toChars "这是一个没有标点的长句子啊")).length
    ∧ (summarySel (fun s => s) (toChars "这是一个没有标点的长句子啊")).length = 1
    ∧ (summarySel (fun s => s) (toChars "这是一个没有标点的长句子啊")).length ≠ 3 := by
  refine ⟨by decide, by decide, by decide⟩

/-- C4 amended: for every translator and every input whose stripped length
reaches the threshold 10, the summarizer renders exactly its selection
`top_items`, and that selection (i) has `min 3 n` entries where `n` is the
number of kept sentences (exactly 3 whenever at least 3 sentences survive
the length filter), (ii) is listed in the original sentence order, (iii)
consists of scored sentences taken at their original positions with the
code's scores, (iv) beats every unselected scored sentence under the stable
ranking (higher score, or equal score and earlier position), and (v) after
punctuation repair every selected sentence ends in a terminal punctuation
mark. -/
theorem summarize_selection (translate : List Char → List Char)
    (text : List Char) (h : 10 ≤ (stripWs text).length) :
    summarizeText translate text = renderHtml (summarySel translate text)
    ∧ (summarySel translate text).length =
        min 3 (sentencesOf (summarySrc translate text)).length
    ∧ (summarySel translate text).Pairwise (fun a b => a.2.1 < b.2.1)
    ∧ (∀ a ∈ summarySel translate text,
        (scoredOf (summarySrc translate text))[a.2.1]? = some a)
    ∧ (∀ k : Nat, (scoredOf (summarySrc translate text))[k]? =
        ((sentencesOf (summarySrc translate text))[k]?).map
          (fun s => (sentScore k s, k, s)))
    ∧ (∀ a ∈ summarySel translate text,
        ∀ b ∈ scoredOf (summarySrc translate text),
        b ∉ summarySel translate text → scoreRel a b)
    ∧ (∀ a ∈ summarySel translate text, ∃ c,
        (finalizeSent a.2.2).getLast? = some c ∧ sentEnd c = true) := by
  have htext : text.isEmpty = false := by
    cases text with
    | nil => simp [stripWs, rstripWs] at h
    | cons c rest => rfl
  have hlen : ¬ (stripWs text).length < 10 := by omega
  refine ⟨?_, ?_, ?_, ?_, ?_, ?_, ?_⟩
  · unfold summarizeText summarySel summarySrc
    rw [htext]
    simp only [Bool.false_eq_true, if_false]
    rw [if_neg hlen]
  · unfold summarySel topItems
    rw [sortByIdx_length, List.length_take, sortDesc_length, scoredOf_length]
  · unfold summarySel topItems
    refine sortByIdx_pairwise_lt _ ?_
    refine List.Pairwise.sublist (List.take_sublist 3 _) ?_
    have hpn : (scoredOf (summarySrc translate text)).Pairwise
        (fun a b => a.2.1 ≠ b.2.1) :=
      (scoredOf_pairwise_idx _).imp (fun hlt => Nat.ne_of_lt hlt)
    exact (List.Perm.pairwise_iff (fun hab => Ne.symm hab)
      (sortDesc_perm _)).mpr hpn
  · intro a ha
    exact scoredOf_mem_getElem? _ a (topItems_mem _ a ha)
  · intro k
    exact scoredOf_getElem? _ k
  · exact topItems_dominates _
  · intro a ha
    have hmem : a ∈ scoredOf (summarySrc translate text) := topItems_mem _ a ha
    have h2 := scoredOf_mem_getElem? _ a hmem
    have h3 := scoredOf_getElem? (summarySrc translate text) a.2.1
    rw [h2] at h3
    cases hs : (sentencesOf (summarySrc translate text))[a.2.1]? with
    | none => rw [hs] at h3; simp at h3
    | some s =>
      rw [hs] at h3
      have ha2 : a.2.2 = s := by
        have := Option.some.inj h3
        rw [this]
      have hsm : s ∈ sentencesOf (summarySrc translate text) :=
        List.getElem?_mem hs
      have hlong := sentencesOf_mem_long _ s hsm
      have hne : a.2.2 ≠ [] := by
        rw [ha2]
        intro hc
        rw [hc] at hlong
        simp at hlong
      exact finalizeSent_ends a.2.2 hne

set_option maxRecDepth 4000 in
/-- Witness for C4 at a four-sentence input: exactly three sentences are
selected. -/
theorem summarize_selection_witness :
    (summarySel (fun s => s)
      (toChars "第一季度销量实现大幅增长。 企业市场规模持续不断扩大。 公司发布多款重要新型产品。 本年度利润同比显著提升。")).length = 3 := by
  have hsel := (summarize_selection (fun s => s)
    (toChars "第一季度销量实现大幅增长。 企业市场规模持续不断扩大。 公司发布多款重要新型产品。 本年度利润同比显著提升。")
    (by decide)).2.1
  rw [hsel]
  decide
